import Mathlib

/-!
Verification of the bytecode compiler and virtual machine of this
repository (packages `code`, `compiler`, `vm`, plus the symbol table).
Each Go function is embedded as an executable Lean definition; machine
integers (`int64`, `uint16`) are modelled as `Int`/`Nat` with explicit
wrap-around where Go wraps.
-/

namespace BytecodeComp

/-! ## Wrapping 64-bit arithmetic (Go int64 semantics) -/

/-- Go `int64` wrap-around: reduce into `[-2^63, 2^63)`. -/
def w64 (x : Int) : Int := (x + 2 ^ 63) % 2 ^ 64 - 2 ^ 63

/-! ## Package `code`: opcodes, operand widths, encode and decode

Source: src/code/defs.go (the opcode list and `definitions` map at the
top of the file, and `MakeInstruction` / `ReadOperands` / `ReadUint16`).
-/

/-- The `Opcode` constants of src/code/defs.go, in `iota` order. -/
inductive Opcode where
  | opConstant
  | opPop
  | opAdd
  | opSub
  | opMul
  | opDiv
  | opTrue
  | opFalse
  | opEqual
  | opNotEqual
  | opGreaterThan
  | opMinus
  | opBang
  | opJumpNotTruthy
  | opJump
  | opNull
  | opGetGlobal
  | opSetGlobal
  | opArray
  | opHash
  | opIndex
  | opCall
  | opReturnValue
  | opReturn
  | opGetLocal
  | opSetLocal
deriving DecidableEq, Repr

/-- The byte value of each opcode (`iota` numbering, `OpConstant = 0`). -/
def Opcode.toByte : Opcode → Nat
  | .opConstant => 0
  | .opPop => 1
  | .opAdd => 2
  | .opSub => 3
  | .opMul => 4
  | .opDiv => 5
  | .opTrue => 6
  | .opFalse => 7
  | .opEqual => 8
  | .opNotEqual => 9
  | .opGreaterThan => 10
  | .opMinus => 11
  | .opBang => 12
  | .opJumpNotTruthy => 13
  | .opJump => 14
  | .opNull => 15
  | .opGetGlobal => 16
  | .opSetGlobal => 17
  | .opArray => 18
  | .opHash => 19
  | .opIndex => 20
  | .opCall => 21
  | .opReturnValue => 22
  | .opReturn => 23
  | .opGetLocal => 24
  | .opSetLocal => 25

/-- The `OperandWidth` field of the `definitions` map in src/code/defs.go:
`[2]` for the u16-operand opcodes, `[1]` for `OpGetLocal`/`OpSetLocal`,
`[]` (the shared `byte0` slice) for all others. Every opcode of the
`Opcode` enumeration has an entry in the map, so this is a total
function. -/
def Opcode.operandWidth : Opcode → List Nat
  | .opConstant => [2]
  | .opJumpNotTruthy => [2]
  | .opJump => [2]
  | .opGetGlobal => [2]
  | .opSetGlobal => [2]
  | .opArray => [2]
  | .opHash => [2]
  | .opGetLocal => [1]
  | .opSetLocal => [1]
  | _ => []

/-- `code.Lookup`: find the definition for a raw opcode byte; `none`
models the `opcode %d undefined` error. -/
def Lookup (b : Nat) : Option Opcode :=
  if b = 0 then some .opConstant
  else if b = 1 then some .opPop
  else if b = 2 then some .opAdd
  else if b = 3 then some .opSub
  else if b = 4 then some .opMul
  else if b = 5 then some .opDiv
  else if b = 6 then some .opTrue
  else if b = 7 then some .opFalse
  else if b = 8 then some .opEqual
  else if b = 9 then some .opNotEqual
  else if b = 10 then some .opGreaterThan
  else if b = 11 then some .opMinus
  else if b = 12 then some .opBang
  else if b = 13 then some .opJumpNotTruthy
  else if b = 14 then some .opJump
  else if b = 15 then some .opNull
  else if b = 16 then some .opGetGlobal
  else if b = 17 then some .opSetGlobal
  else if b = 18 then some .opArray
  else if b = 19 then some .opHash
  else if b = 20 then some .opIndex
  else if b = 21 then some .opCall
  else if b = 22 then some .opReturnValue
  else if b = 23 then some .opReturn
  else if b = 24 then some .opGetLocal
  else if b = 25 then some .opSetLocal
  else none

/-- Overwrite bytes of `buf` in place starting at `pos`, one byte per
element of `bytes` (the loop body of `replaceInstruction`, and the
effect of `binary.BigEndian.PutUint16` inside a larger buffer).
Go panics when `pos+i` is out of range; `List.set` is a no-op there, and
every use below stays in range. -/
def overwriteAt : List Nat → Nat → List Nat → List Nat
  | buf, _, [] => buf
  | buf, pos, b :: bs => overwriteAt (buf.set pos b) (pos + 1) bs

/-- The operand-writing loop of `MakeInstruction`: for each operand and
its declared width, `case 2:` writes the two big-endian bytes of
`uint16(opr)`; any other width (in particular width 1) writes nothing;
`offset += width` either way. -/
def putOperandsLoop : List (Nat × Nat) → Nat → List Nat → List Nat
  | [], _, buf => buf
  | (opr, width) :: rest, offset, buf =>
    let buf' := match width with
      | 2 => overwriteAt buf offset [opr % 65536 / 256, opr % 256]
      | _ => buf
    putOperandsLoop rest (offset + width) buf'

/-- `code.MakeInstruction`: a zeroed buffer of length `1 + Σ width`,
opcode byte first, then the operand-writing loop. Go indexes
`def.OperandWidth[i]` by operand position (panicking when more operands
than widths are supplied); the `zip` pairs each operand with its width
and is exact when the counts match, as in every call site. -/
def MakeInstruction (op : Opcode) (operands : List Nat) : List Nat :=
  let widths := op.operandWidth
  let instruction := (List.replicate (1 + widths.sum) 0).set 0 op.toByte
  putOperandsLoop (operands.zip widths) 1 instruction

/-- `code.ReadUint16`: big-endian decode of two bytes. Go panics when
fewer than two bytes remain; `getD _ 0` keeps the definition total, and
all verified uses are in range. -/
def ReadUint16 (ins : List Nat) : Nat :=
  256 * ins.getD 0 0 + ins.getD 1 0

/-- The operand-reading loop of `ReadOperands`: the operands slice is
created zero-filled, and only `case 2:` assigns a value, so a width
other than 2 leaves the operand at 0; `offset += width` either way. -/
def readOperandsLoop : List Nat → List Nat → Nat → List Nat × Nat
  | [], _, offset => ([], offset)
  | width :: ws, ins, offset =>
    let v := match width with
      | 2 => ReadUint16 (ins.drop offset)
      | _ => 0
    let rest := readOperandsLoop ws ins (offset + width)
    (v :: rest.1, rest.2)

/-- `code.ReadOperands`: decode the operand vector described by the
operand widths from the instruction bytes (the opcode byte already
stripped), returning the operands and the byte count consumed. -/
def ReadOperands (widths : List Nat) (ins : List Nat) : List Nat × Nat :=
  readOperandsLoop widths ins 0

/-! ## Symbol table

Source: src/unnamed/part_005 (package `compiler`, `SymbolTable` with an
`Outer` chain, `Define`, `Resolve`).
-/

/-- `SymbolScope`: `GlobalScope`/`LocalScope` string constants. -/
inductive SymbolScope where
  | globalScope
  | localScope
deriving DecidableEq, Repr

/-- A `Symbol`: name, scope and index. -/
structure Symbol where
  name : String
  scope : SymbolScope
  index : Nat
deriving DecidableEq, Repr

/-- A `SymbolTable`: optional outer table, the `store` map (modelled as
an association list where the most recent binding is first, matching Go
map assignment followed by lookup), and the definition counter. -/
inductive SymbolTable where
  | mk (outer : Option SymbolTable) (store : List (String × Symbol)) (defCount : Nat)

/-- Outer table of a symbol table. -/
def SymbolTable.outer : SymbolTable → Option SymbolTable
  | .mk o _ _ => o

/-- Store of a symbol table. -/
def SymbolTable.store : SymbolTable → List (String × Symbol)
  | .mk _ s _ => s

/-- Definition counter of a symbol table. -/
def SymbolTable.defCount : SymbolTable → Nat
  | .mk _ _ d => d

/-- Lookup in the `store` map: first (most recent) binding wins. -/
def storeGet : List (String × Symbol) → String → Option Symbol
  | [], _ => none
  | (k, v) :: rest, name => if k = name then some v else storeGet rest name

/-- `NewSymbolTable`. -/
def NewSymbolTable : SymbolTable := .mk none [] 0

/-- `NewEnclosedSymbolTable`. -/
def NewEnclosedSymbolTable (outer : SymbolTable) : SymbolTable :=
  .mk (some outer) [] 0

/-- `SymbolTable.Define`: create a symbol with the next index, Global
scope when there is no outer table and Local otherwise, store it and
bump the counter. Returns the symbol and the updated table. -/
def SymbolTable.define (s : SymbolTable) (name : String) : Symbol × SymbolTable :=
  match s with
  | .mk outer store defCount =>
    let scope := match outer with
      | none => SymbolScope.globalScope
      | some _ => SymbolScope.localScope
    let symbol : Symbol := ⟨name, scope, defCount⟩
    (symbol, .mk outer ((name, symbol) :: store) (defCount + 1))

/-- `SymbolTable.Resolve`: look up in the own store; on a miss recurse
into the outer table when present, otherwise report the miss. -/
def SymbolTable.resolve : SymbolTable → String → Option Symbol
  | .mk none store _, name => storeGet store name
  | .mk (some o) store _, name =>
    match storeGet store name with
    | some symbol => some symbol
    | none => o.resolve name

/-- The chain of stores from the innermost table outward (specification
device for the resolve theorem). -/
def SymbolTable.chainStores : SymbolTable → List (List (String × Symbol))
  | .mk outer store _ =>
    store :: (match outer with
      | some o => o.chainStores
      | none => [])

/-- First hit along a list of stores. -/
def firstHit : List (List (String × Symbol)) → String → Option Symbol
  | [], _ => none
  | st :: rest, name =>
    match storeGet st name with
    | some symbol => some symbol
    | none => firstHit rest name

/-! ## Values

The `comp/object` package is not under src/.
Modelled from the spec: §3.1 gives the value kinds (Integer 64-bit
signed, Boolean, Null, String, Array, Hash, plus function kinds that
the compiler pipeline never produces); `nilRef` additionally models the
nil Go interface value that sits in never-written stack and globals
slots. -/
inductive HashKey where
  | intKey (v : Int)
  | boolKey (b : Bool)
  | strKey (s : String)
deriving DecidableEq, Repr

/-- Modelled from the spec: §3.1 values (see `HashKey` above). -/
inductive Obj where
  | nilRef
  | intV (value : Int)
  | boolV (value : Bool)
  | nullV
  | strV (value : String)
  | arrayV (elems : List Obj)
  | hashV (pairs : List (HashKey × Obj × Obj))

/-- Modelled from the spec: the `Type()` string of each object kind
(`INTEGER_OBJ` etc. of the missing object package); `none` models the
panic of calling `Type()` on a nil interface. -/
def objType : Obj → Option String
  | .nilRef => none
  | .intV _ => some "INTEGER"
  | .boolV _ => some "BOOLEAN"
  | .nullV => some "NULL"
  | .strV _ => some "STRING"
  | .arrayV _ => some "ARRAY"
  | .hashV _ => some "HASH"

/-- Modelled from the spec: §3.1 hashable-key — Integer, Boolean and
String values yield a kind-tagged key; other kinds are not hashable. -/
def hashKeyOf : Obj → Option HashKey
  | .intV v => some (.intKey v)
  | .boolV b => some (.boolKey b)
  | .strV s => some (.strKey s)
  | _ => none

/-! ## AST

The `comp/ast` package is not under src/.
Modelled from the spec: §9 lists the node kinds (root, let, return,
expression-statement, block, identifier, integer/string/boolean/
array/hash literals, prefix/infix/index/call/function/if); the field
names follow the uses in src/compiler/compiler.go and the evaluator. -/
mutual

inductive Expr where
  | identE (name : String)
  | intLit (value : Int)
  | strLit (value : String)
  | boolLit (value : Bool)
  | prefixE (op : String) (right : Expr)
  | infixE (op : String) (left : Expr) (right : Expr)
  | ifE (cond : Expr) (conseq : Block) (alt : Option Block)
  | arrayLit (elems : List Expr)
  | hashLit (pairs : List (Expr × Expr))
  | indexE (left : Expr) (idx : Expr)
  | callE (fn : Expr) (args : List Expr)
  | funcLit (params : List String) (body : Block)

inductive Stmt where
  | letS (name : String) (value : Expr)
  | returnS (value : Expr)
  | exprS (e : Expr)
  | blockS (b : Block)

inductive Block where
  | nil
  | cons (s : Stmt) (rest : Block)

end

/-! ## Compiler

Source: src/compiler/compiler.go.
-/

/-- `EmittedInstruction`. -/
structure EmittedInstruction where
  opCode : Opcode
  position : Nat
deriving DecidableEq, Repr

/-- The `Compiler` struct. -/
structure Compiler where
  instructions : List Nat
  constants : List Obj
  lastInstruction : EmittedInstruction
  previousInstruction : EmittedInstruction
  symbolTable : SymbolTable

/-- `NewCompiler`: empty state. The zero value of `EmittedInstruction`
in Go has `OpCode = Opcode(0) = OpConstant` and `Position = 0`. -/
def NewCompiler : Compiler :=
  { instructions := []
    constants := []
    lastInstruction := ⟨.opConstant, 0⟩
    previousInstruction := ⟨.opConstant, 0⟩
    symbolTable := NewSymbolTable }

/-- `addConstant`: append and return the new index. -/
def Compiler.addConstant (c : Compiler) (ob : Obj) : Nat × Compiler :=
  (c.constants.length, { c with constants := c.constants ++ [ob] })

/-- `emit`: append the encoded instruction, remember the previous and
last emitted instruction, return the position of the new instruction. -/
def Compiler.emit (c : Compiler) (op : Opcode) (operands : List Nat) : Nat × Compiler :=
  let pos := c.instructions.length
  (pos,
    { c with
      instructions := c.instructions ++ MakeInstruction op operands
      previousInstruction := c.lastInstruction
      lastInstruction := ⟨op, pos⟩ })

/-- `lastInstructionIsPop`. -/
def Compiler.lastInstructionIsPop (c : Compiler) : Bool :=
  c.lastInstruction.opCode == .opPop

/-- `removeLastPop`: truncate to the last instruction's position and
restore the previous record. -/
def Compiler.removeLastPop (c : Compiler) : Compiler :=
  { c with
    instructions := c.instructions.take c.lastInstruction.position
    lastInstruction := c.previousInstruction }

/-- `replaceInstruction`: overwrite bytes at `pos`. -/
def Compiler.replaceInstruction (c : Compiler) (pos : Nat) (instruction : List Nat) : Compiler :=
  { c with instructions := overwriteAt c.instructions pos instruction }

/-- `changeOperand`: re-encode the instruction at `pos` with the new
operand and overwrite it in place. A byte without a definition makes
`MakeInstruction` return the empty slice, so nothing is replaced. -/
def Compiler.changeOperand (c : Compiler) (pos operand : Nat) : Compiler :=
  match Lookup (c.instructions.getD pos 0) with
  | some op => c.replaceInstruction pos (MakeInstruction op [operand])
  | none => c.replaceInstruction pos []

/-- `emitInfixOp`: opcode for each infix operator. -/
def emitInfixOp (op : String) (c : Compiler) : Except String Compiler :=
  if op = "+" then .ok (c.emit .opAdd []).2
  else if op = "-" then .ok (c.emit .opSub []).2
  else if op = "*" then .ok (c.emit .opMul []).2
  else if op = "/" then .ok (c.emit .opDiv []).2
  else if op = "!=" then .ok (c.emit .opNotEqual []).2
  else if op = "==" then .ok (c.emit .opEqual []).2
  else if op = ">" then .ok (c.emit .opGreaterThan []).2
  else .error ("unknown operator " ++ op)

mutual

/-- The expression cases of `Compiler.Compile` (the `switch node :=
node.(type)` dispatch). Node kinds without a case — string, array and
hash literals, index and call expressions, function literals — fall
through the switch and return `nil` without emitting anything. -/
def compileExpr : Expr → Compiler → Except String Compiler
  | .identE name, c =>
    match c.symbolTable.resolve name with
    | some symbol => .ok (c.emit .opGetGlobal [symbol.index]).2
    | none => .error ("undefined variable: " ++ name)
  | .intLit n, c =>
    let r := (c.addConstant (.intV n))
    .ok (r.2.emit .opConstant [r.1]).2
  | .boolLit b, c =>
    if !b then .ok (c.emit .opFalse []).2
    else .ok (c.emit .opTrue []).2
  | .strLit _, c => .ok c
  | .arrayLit _, c => .ok c
  | .hashLit _, c => .ok c
  | .indexE _ _, c => .ok c
  | .callE _ _, c => .ok c
  | .funcLit _ _, c => .ok c
  | .prefixE op right, c => do
    let c ← compileExpr right c
    if op = "-" then .ok (c.emit .opMinus []).2
    else if op = "!" then .ok (c.emit .opBang []).2
    else .error ("invalid operation: " ++ op)
  | .infixE op left right, c =>
    if op = "<" then do
      let c ← compileExpr right c
      let c ← compileExpr left c
      .ok (c.emit .opGreaterThan []).2
    else do
      let c ← compileExpr left c
      let c ← compileExpr right c
      emitInfixOp op c
  | .ifE cond conseq alt, c => do
    let c ← compileExpr cond c
    let r := c.emit .opJumpNotTruthy [1000]
    let c ← compileBlock conseq r.2
    let c := if c.lastInstructionIsPop then c.removeLastPop else c
    handleJump alt r.1 c

/-- `handleJump`: emit the unconditional jump, patch the conditional
jump to the position after the consequence, compile the alternative (or
emit `OpNull`), and patch the unconditional jump to the final length. -/
def handleJump : Option Block → Nat → Compiler → Except String Compiler
  | alt, posJumpNotTruthy, c₀ => do
    let r := c₀.emit .opJump [1000]
    let c := r.2
    let c := c.changeOperand posJumpNotTruthy c.instructions.length
    let c ←
      match alt with
      | none => Except.ok (c.emit .opNull []).2
      | some b => do
        let c ← compileBlock b c
        Except.ok (if c.lastInstructionIsPop then c.removeLastPop else c)
    .ok (c.changeOperand r.1 c.instructions.length)

/-- The statement cases of `Compiler.Compile`. A `ReturnStatement` has
no case and falls through, emitting nothing. -/
def compileStmt : Stmt → Compiler → Except String Compiler
  | .letS name value, c => do
    let c ← compileExpr value c
    let r := c.symbolTable.define name
    let c := { c with symbolTable := r.2 }
    .ok (c.emit .opSetGlobal [r.1.index]).2
  | .returnS _, c => .ok c
  | .exprS e, c => do
    let c ← compileExpr e c
    .ok (c.emit .opPop []).2
  | .blockS b, c => compileBlock b c

/-- The `RootStatement` / `BlockStatement` loop of `Compiler.Compile`:
compile each child in order, stopping at the first error. -/
def compileBlock : Block → Compiler → Except String Compiler
  | .nil, c => .ok c
  | .cons s rest, c => do
    let c ← compileStmt s c
    compileBlock rest c

end

/-- `ByteCode`. -/
structure ByteCode where
  instructions : List Nat
  constants : List Obj

/-- `Compiler.ByteCode()`. -/
def Compiler.byteCode (c : Compiler) : ByteCode :=
  ⟨c.instructions, c.constants⟩

/-- Compile a whole program (`RootStatement`) with a fresh compiler and
take the bytecode snapshot. -/
def compileProgram (root : Block) : Except String ByteCode :=
  (compileBlock root NewCompiler).map Compiler.byteCode

/-! ## Virtual machine

Source: src/vm/vm.go (the second, authoritative version: globals,
jumps, OpNull, OpArray/OpHash and the `unknown operation` default).
-/

/-- Outcome of a fallible VM computation. `fail` models a returned Go
`error`; `crash` models a Go runtime panic (index out of range, nil
dereference, failed type assertion); `timeout` only arises from fuel
exhaustion of the step-bounded runner, never from a single step. -/
inductive Outcome (α : Type) where
  | ok (a : α)
  | fail (msg : String)
  | crash (msg : String)
  | timeout
deriving Repr

/-- Sequencing of outcomes. -/
def Outcome.bind : Outcome α → (α → Outcome β) → Outcome β
  | .ok a, f => f a
  | .fail m, _ => .fail m
  | .crash m, _ => .crash m
  | .timeout, _ => .timeout

instance : Monad Outcome where
  pure := .ok
  bind := Outcome.bind

/-- Whether an outcome is a returned error. -/
def Outcome.isFail : Outcome α → Bool
  | .fail _ => true
  | _ => false

/-- `StackSize`. -/
def StackSize : Nat := 2048

/-- `GlobalsSize`. -/
def GlobalsSize : Nat := 65536

/-- The `VM` struct. The stack and globals are fixed-length lists whose
never-written slots hold the nil interface value. -/
structure VM where
  instructions : List Nat
  constants : List Obj
  stack : List Obj
  sp : Nat
  globals : List Obj

/-- `NewVM`: `make([]object.Object, n)` fills with nil interfaces. -/
def NewVM (bc : ByteCode) : VM :=
  { instructions := bc.instructions
    constants := bc.constants
    stack := List.replicate StackSize .nilRef
    sp := 0
    globals := List.replicate GlobalsSize .nilRef }

/-- `LastPoppedStackElement`: the slot just past `sp`. -/
def VM.LastPoppedStackElement (vm : VM) : Obj :=
  vm.stack.getD vm.sp .nilRef

/-- `pop`: read `stack[sp-1]` and decrement `sp`. With `sp = 0` the Go
code indexes `stack[-1]`, a runtime panic; `sp` is never decremented in
that case. The stack slice always has length `StackSize` (`NewVM`), so
Go's bounds check `sp-1 < len(stack)` is the check against
`StackSize`. -/
def VM.pop (vm : VM) : Outcome (Obj × VM) :=
  if vm.sp = 0 ∨ StackSize < vm.sp then
    .crash "runtime error: index out of range"
  else
    .ok (vm.stack.getD (vm.sp - 1) .nilRef, { vm with sp := vm.sp - 1 })

/-- `push`: guard `sp >= StackSize` with the `stack overflow` error,
then write `stack[sp]` and increment `sp` (the write is in bounds, the
stack having length `StackSize`). -/
def VM.push (vm : VM) (ob : Obj) : Outcome VM :=
  if vm.sp ≥ StackSize then .fail "stack overflow"
  else .ok { vm with stack := vm.stack.set vm.sp ob, sp := vm.sp + 1 }

/-- `boolNativeToBoolObject`: the True/False singletons. -/
def boolNativeToBoolObject (input : Bool) : Obj :=
  if input then .boolV true else .boolV false

/-- `isTruthy`: the type switch returns the Boolean's value, false for
Null, and true for every other dynamic type (including a nil interface,
which matches no case and falls to the default). -/
def isTruthy : Obj → Bool
  | .boolV b => b
  | .nullV => false
  | _ => true

/-- Go interface pointer equality `right == left` as used by
`executeComparison` outside the both-Integer path. The Boolean and Null
values are process-wide singletons, so those kinds compare by value;
two nil interfaces are equal; distinct heap allocations (String, Array,
Hash, Integer) are never pointer-equal, and the Integer case is
unreachable behind the both-Integer guard. -/
def sameRef : Obj → Obj → Bool
  | .boolV a, .boolV b => a == b
  | .nullV, .nullV => true
  | .nilRef, .nilRef => true
  | _, _ => false

/-- `executeBinaryIntegerOperation`, split into the value computation;
the caller pushes the result. Division checks the `division by zero`
error before dividing; Go `int64` arithmetic wraps. -/
def executeBinaryIntegerOperation (op : Nat) (left right : Obj) : Outcome Obj :=
  match left, right with
  | .intV lval, .intV rval =>
    if op = Opcode.opAdd.toByte then .ok (.intV (w64 (lval + rval)))
    else if op = Opcode.opSub.toByte then .ok (.intV (w64 (lval - rval)))
    else if op = Opcode.opMul.toByte then .ok (.intV (w64 (lval * rval)))
    else if op = Opcode.opDiv.toByte then
      if rval = 0 then .fail "division by zero"
      else .ok (.intV (w64 (Int.tdiv lval rval)))
    else .fail ("invalid integer operation: " ++ toString op)
  | _, _ => .crash "interface conversion"

/-- `executeBinaryStringOperation`, split into the value computation. -/
def executeBinaryStringOperation (op : Nat) (left right : Obj) : Outcome Obj :=
  if op ≠ Opcode.opAdd.toByte then .fail ("invalid string operation: " ++ toString op)
  else
    match left, right with
    | .strV lval, .strV rval => .ok (.strV (lval ++ rval))
    | _, _ => .crash "interface conversion"

/-- `executeBinaryOperation`: pop right, then left; Integer pairs go to
the integer routine, String pairs to the string routine, anything else
is the `invalid types` error. Every branch of the Go switch inspects
`Type()` of a nil operand before completing, so a nil operand always
panics; the two `objType` matches capture that. -/
def VM.executeBinaryOperation (vm : VM) (op : Nat) : Outcome VM := do
  let (right, vm) ← vm.pop
  let (left, vm) ← vm.pop
  match objType left, objType right with
  | some lt, some rt =>
    if lt = "INTEGER" ∧ rt = "INTEGER" then do
      let result ← executeBinaryIntegerOperation op left right
      vm.push result
    else if lt = "STRING" ∧ rt = "STRING" then do
      let result ← executeBinaryStringOperation op left right
      vm.push result
    else .fail ("invalid types for binary operation: " ++ lt ++ " " ++ rt)
  | _, _ => .crash "runtime error: invalid memory address or nil pointer dereference"

/-- `executeIntegerComparison`, split into the value computation. -/
def executeIntegerComparison (op : Nat) (left right : Obj) : Outcome Obj :=
  match left, right with
  | .intV leftVal, .intV rightVal =>
    if op = Opcode.opGreaterThan.toByte then
      .ok (boolNativeToBoolObject (decide (leftVal > rightVal)))
    else if op = Opcode.opEqual.toByte then
      .ok (boolNativeToBoolObject (decide (leftVal = rightVal)))
    else if op = Opcode.opNotEqual.toByte then
      .ok (boolNativeToBoolObject (decide (leftVal ≠ rightVal)))
    else .fail ("invalid operator: " ++ toString op)
  | _, _ => .crash "interface conversion"

/-- The non-Integer switch of `executeComparison`: `OpEqual` and
`OpNotEqual` push the identity comparison of the popped operands; any
other opcode is the `invalid operator` error, whose message formats both
types (panicking on a nil operand). -/
def VM.comparisonFallback (vm : VM) (op : Nat) (left right : Obj) : Outcome VM :=
  if op = Opcode.opEqual.toByte then
    vm.push (boolNativeToBoolObject (sameRef right left))
  else if op = Opcode.opNotEqual.toByte then
    vm.push (boolNativeToBoolObject (!sameRef right left))
  else
    match objType left, objType right with
    | some lt, some rt =>
      .fail ("invalid operator: " ++ toString op ++ " (" ++ lt ++ " " ++ rt ++ ")")
    | _, _ => .crash "runtime error: invalid memory address or nil pointer dereference"

/-- `executeComparison`: pop right then left; both-Integer operands use
the numeric comparison, otherwise the identity switch. The guard
evaluates `left.Type()` first (panicking on nil) and short-circuits, so
`right.Type()` is only evaluated when `left` is an Integer. -/
def VM.executeComparison (vm : VM) (op : Nat) : Outcome VM := do
  let (right, vm) ← vm.pop
  let (left, vm) ← vm.pop
  match objType left with
  | none => .crash "runtime error: invalid memory address or nil pointer dereference"
  | some lt =>
    if lt = "INTEGER" then
      match objType right with
      | none => .crash "runtime error: invalid memory address or nil pointer dereference"
      | some rt =>
        if rt = "INTEGER" then do
          let result ← executeIntegerComparison op left right
          vm.push result
        else vm.comparisonFallback op left right
    else vm.comparisonFallback op left right

/-- `executeBangOperator`: the switch compares the operand against the
True/False/Null singleton pointers; everything else is truthy, giving
False. -/
def VM.executeBangOperator (vm : VM) : Outcome VM := do
  let (operand, vm) ← vm.pop
  match operand with
  | .boolV true => vm.push (.boolV false)
  | .boolV false => vm.push (.boolV true)
  | .nullV => vm.push (.boolV true)
  | _ => vm.push (.boolV false)

/-- `executeMinusOperation`: only Integer operands; the negation wraps
(`-MinInt64` stays `MinInt64`). -/
def VM.executeMinusOperation (vm : VM) : Outcome VM := do
  let (operand, vm) ← vm.pop
  match objType operand with
  | none => .crash "runtime error: invalid memory address or nil pointer dereference"
  | some t =>
    if t = "INTEGER" then
      match operand with
      | .intV value => vm.push (.intV (w64 (-value)))
      | _ => .crash "interface conversion"
    else .fail ("invalid object type for negation: " ++ t)

/-- `buildArray`: the stack slots `[startIndex, endIndex)` in order. -/
def VM.buildArray (vm : VM) (startIndex endIndex : Nat) : Obj :=
  .arrayV ((vm.stack.drop startIndex).take (endIndex - startIndex))

/-- Replace-or-append insertion into the hash pair map (Go map
assignment). -/
def hashSet : List (HashKey × Obj × Obj) → HashKey → Obj → Obj → List (HashKey × Obj × Obj)
  | [], key, k, v => [(key, k, v)]
  | (key', a, b) :: rest, key, k, v =>
    if key' = key then (key, k, v) :: rest
    else (key', a, b) :: hashSet rest key k v

/-- The pair loop of `buildHash` over the listed stack slots; `extra` is
the slot at `endIndex` that Go reads when the slot count is odd (`i+1 =
endIndex` on the last iteration), `none` when even that read would be
out of range. A non-hashable key is the `unusable as hash key` error
(whose message panics on a nil key). -/
def buildHashLoop : List Obj → Option Obj → List (HashKey × Obj × Obj) →
    Outcome (List (HashKey × Obj × Obj))
  | [], _, acc => .ok acc
  | [key], extra, acc =>
    match extra with
    | some val =>
      (match hashKeyOf key with
       | some hk => .ok (hashSet acc hk key val)
       | none =>
         match objType key with
         | some t => .fail ("unusable as hash key: " ++ t)
         | none => .crash "runtime error: invalid memory address or nil pointer dereference")
    | none => .crash "runtime error: index out of range"
  | key :: val :: rest, extra, acc =>
    match hashKeyOf key with
    | some hk => buildHashLoop rest extra (hashSet acc hk key val)
    | none =>
      match objType key with
      | some t => .fail ("unusable as hash key: " ++ t)
      | none => .crash "runtime error: invalid memory address or nil pointer dereference"

/-- `buildHash`: alternating key/value pairs from the stack slots
`[startIndex, endIndex)`. -/
def VM.buildHash (vm : VM) (startIndex endIndex : Nat) : Outcome Obj := do
  let slots := (vm.stack.drop startIndex).take (endIndex - startIndex)
  let extra := if endIndex < vm.stack.length then some (vm.stack.getD endIndex .nilRef) else none
  let pairs ← buildHashLoop slots extra []
  .ok (.hashV pairs)

/-- `binary.BigEndian.Uint16(vm.instructions[pos:])`: big-endian decode
of the two bytes at `pos`; fewer than two remaining bytes panic. -/
def VM.readU16At (vm : VM) (pos : Nat) : Outcome Nat :=
  if pos + 1 < vm.instructions.length then
    .ok (256 * vm.instructions.getD pos 0 + vm.instructions.getD (pos + 1) 0)
  else .crash "runtime error: index out of range"

/-- One iteration of the `RunVM` dispatch loop at instruction pointer
`ip`: read the opcode byte, execute its case, and return the state
together with the next value of `ip` (the Go loop's `ip++` already
applied; jumps set `ip = pos - 1` so the increment lands on `pos`).
Opcode bytes without a case — `OpIndex` and everything above — take the
`default` branch and return the `unknown operation` error. -/
def stepVM (vm : VM) (ip : Nat) : Outcome (VM × Nat) :=
  let operation := vm.instructions.getD ip 0
  if operation = Opcode.opPop.toByte then do
    let r ← vm.pop
    .ok (r.2, ip + 1)
  else if operation = Opcode.opConstant.toByte then do
    let constIndex ← vm.readU16At (ip + 1)
    if constIndex < vm.constants.length then do
      let vm ← vm.push (vm.constants.getD constIndex .nilRef)
      .ok (vm, ip + 3)
    else .crash "runtime error: index out of range"
  else if operation = Opcode.opTrue.toByte then do
    let vm ← vm.push (.boolV true)
    .ok (vm, ip + 1)
  else if operation = Opcode.opFalse.toByte then do
    let vm ← vm.push (.boolV false)
    .ok (vm, ip + 1)
  else if operation = Opcode.opBang.toByte then do
    let vm ← vm.executeBangOperator
    .ok (vm, ip + 1)
  else if operation = Opcode.opJump.toByte then do
    let pos ← vm.readU16At (ip + 1)
    .ok (vm, pos)
  else if operation = Opcode.opJumpNotTruthy.toByte then do
    let pos ← vm.readU16At (ip + 1)
    let r ← vm.pop
    if !isTruthy r.1 then .ok (r.2, pos) else .ok (r.2, ip + 3)
  else if operation = Opcode.opAdd.toByte ∨ operation = Opcode.opSub.toByte ∨
      operation = Opcode.opMul.toByte ∨ operation = Opcode.opDiv.toByte then do
    let vm ← vm.executeBinaryOperation operation
    .ok (vm, ip + 1)
  else if operation = Opcode.opMinus.toByte then do
    let vm ← vm.executeMinusOperation
    .ok (vm, ip + 1)
  else if operation = Opcode.opEqual.toByte ∨ operation = Opcode.opNotEqual.toByte ∨
      operation = Opcode.opGreaterThan.toByte then do
    let vm ← vm.executeComparison operation
    .ok (vm, ip + 1)
  else if operation = Opcode.opSetGlobal.toByte then do
    let globalIndex ← vm.readU16At (ip + 1)
    let r ← vm.pop
    -- the u16 operand is < 65536 = GlobalsSize = len(globals), always in range
    .ok ({ r.2 with globals := r.2.globals.set globalIndex r.1 }, ip + 3)
  else if operation = Opcode.opGetGlobal.toByte then do
    let globalIndex ← vm.readU16At (ip + 1)
    let vm ← vm.push (vm.globals.getD globalIndex .nilRef)
    .ok (vm, ip + 3)
  else if operation = Opcode.opNull.toByte then do
    let vm ← vm.push .nullV
    .ok (vm, ip + 1)
  else if operation = Opcode.opArray.toByte then do
    let length ← vm.readU16At (ip + 1)
    if length ≤ vm.sp then do
      let array := vm.buildArray (vm.sp - length) vm.sp
      let vm ← VM.push { vm with sp := vm.sp - length } array
      .ok (vm, ip + 3)
    else .crash "runtime error: index out of range"
  else if operation = Opcode.opHash.toByte then do
    let length ← vm.readU16At (ip + 1)
    if length ≤ vm.sp then do
      let hash ← vm.buildHash (vm.sp - length) vm.sp
      let vm ← VM.push { vm with sp := vm.sp - length } hash
      .ok (vm, ip + 3)
    else .crash "runtime error: index out of range"
  else .fail ("unknown operation: " ++ toString operation)

/-- The `RunVM` loop, bounded by `fuel` iterations: while `ip <
len(instructions)`, run one dispatch step; on falling off the end,
return the final state (`RunVM` returns `nil`). -/
def runVM : Nat → VM → Nat → Outcome VM
  | 0, _, _ => .timeout
  | fuel + 1, vm, ip =>
    if ip < vm.instructions.length then
      match stepVM vm ip with
      | .ok r => runVM fuel r.1 r.2
      | .fail m => .fail m
      | .crash m => .crash m
      | .timeout => .timeout
    else .ok vm

/-- `RunVM` from instruction pointer 0. -/
def RunVM (fuel : Nat) (vm : VM) : Outcome VM :=
  runVM fuel vm 0

/-! ## Proof devices: concrete programs and run helpers -/

/-- Big-endian two-byte encoding of one u16 operand (proof device for
the `MakeInstruction` layout lemmas). -/
def enc2 (v : Nat) : List Nat := [v % 65536 / 256, v % 256]

/-- Compile a program, run it on a fresh VM and return the last popped
element (the REPL pipeline for one line). -/
def runLastPopped (fuel : Nat) (b : Block) : Outcome Obj :=
  match compileProgram b with
  | .ok bc => (RunVM fuel (NewVM bc)).bind (fun vm => .ok vm.LastPoppedStackElement)
  | .error e => .fail e

/-- Compile a program, run it on a fresh VM and return the final stack
pointer. -/
def runFinalSp (fuel : Nat) (b : Block) : Outcome Nat :=
  match compileProgram b with
  | .ok bc => (RunVM fuel (NewVM bc)).bind (fun vm => .ok vm.sp)
  | .error e => .fail e

/-- `if (true) { 10 } else { 20 }` as a single expression statement. -/
def progIfTrue : Block :=
  .cons (.exprS (.ifE (.boolLit true)
    (.cons (.exprS (.intLit 10)) .nil)
    (some (.cons (.exprS (.intLit 20)) .nil)))) .nil

/-- `if (false) { 10 }` (no alternative). -/
def progIfFalse : Block :=
  .cons (.exprS (.ifE (.boolLit false)
    (.cons (.exprS (.intLit 10)) .nil)
    none)) .nil

/-- `[1, 2, 3][1 + 1]`. -/
def progIndexArr : Block :=
  .cons (.exprS (.indexE
    (.arrayLit [.intLit 1, .intLit 2, .intLit 3])
    (.infixE "+" (.intLit 1) (.intLit 1)))) .nil

/-- `[1, 2, 3][-1]` (the parser yields a prefix minus). -/
def progIndexNeg : Block :=
  .cons (.exprS (.indexE
    (.arrayLit [.intLit 1, .intLit 2, .intLit 3])
    (.prefixE "-" (.intLit 1)))) .nil

/-- A VM about to execute `OpIndex` with an Array below an Integer on
the stack (handcrafted, since the compiler never emits `OpIndex`). -/
def vmAtOpIndex : VM :=
  { instructions := [Opcode.opIndex.toByte]
    constants := []
    stack := ((List.replicate StackSize Obj.nilRef).set 0
      (Obj.arrayV [.intV 1, .intV 2, .intV 3])).set 1 (.intV 2)
    sp := 2
    globals := List.replicate GlobalsSize .nilRef }

/-- `if (false) { let x = 1; x } else { x }`: the alternative's `x`
resolves at compile time (the consequence defined it), but at run time
the false branch skips `OpSetGlobal`, so `OpGetGlobal 0` reads a
never-written globals slot. -/
def progDeadLet : Block :=
  .cons (.exprS (.ifE (.boolLit false)
    (.cons (.letS "x" (.intLit 1)) (.cons (.exprS (.identE "x")) .nil))
    (some (.cons (.exprS (.identE "x")) .nil)))) .nil

/-- A VM whose stack holds Integer 7 under Integer 2, `sp = 2`. -/
def vmTwoInts : VM :=
  { instructions := []
    constants := []
    stack := ((List.replicate StackSize Obj.nilRef).set 0 (.intV 7)).set 1 (.intV 2)
    sp := 2
    globals := List.replicate GlobalsSize .nilRef }

/-- A VM whose stack holds Integer 7 under Integer 0, `sp = 2`. -/
def vmDivZero : VM :=
  { vmTwoInts with
    stack := ((List.replicate StackSize Obj.nilRef).set 0 (.intV 7)).set 1 (.intV 0) }

/-- A VM whose stack holds True under Null, `sp = 2`. -/
def vmBoolNull : VM :=
  { vmTwoInts with
    stack := ((List.replicate StackSize Obj.nilRef).set 0 (.boolV true)).set 1 .nullV }

/-- Instruction walk over a byte stream, following the disassembly loop
of `Instructions.String()`: an undefined opcode byte advances by one;
a defined opcode consumes its operand bytes (`false` when the stream
ends inside an instruction). Every `OpJumpNotTruthy` (13) or `OpJump`
(14) instruction must carry a big-endian operand `≤ total`. -/
def jumpsOkWalk : List Nat → Nat → Bool
  | [], _ => true
  | b :: rest, total =>
    match Lookup b with
    | none => jumpsOkWalk rest total
    | some op =>
      if rest.length < op.operandWidth.sum then false
      else
        (if b = 13 ∨ b = 14 then
          decide (256 * rest.getD 0 0 + rest.getD 1 0 ≤ total)
        else true)
        && jumpsOkWalk (rest.drop op.operandWidth.sum) total
termination_by l _ => l.length
decreasing_by
  · simp
  · simp [List.length_drop]; omega

/-- The last-instruction facts a compile step guarantees when the
freshly compiled region ends in an `OpPop`: the region's last byte is
that `OpPop`, the recorded position points at it, and the region with
the `OpPop` removed is still a well-formed stream whose jumps stay in
range of the truncated length. -/
def PopFacts (c : Compiler) (base Δ : List Nat) : Prop :=
  c.lastInstruction.opCode = .opPop →
    Δ.getLast? = some 1
    ∧ c.lastInstruction.position = base.length + (Δ.length - 1)
    ∧ jumpsOkWalk Δ.dropLast (base.length + (Δ.length - 1)) = true

/-- What compiling a statement or a block guarantees: the instruction
stream is extended by a well-formed region whose jumps stay in range;
an empty region means the whole state is untouched; a nonempty region
satisfies the `PopFacts`. -/
def BlockOut (c c' : Compiler) : Prop :=
  ∃ Δ, c'.instructions = c.instructions ++ Δ
    ∧ jumpsOkWalk Δ c'.instructions.length = true
    ∧ (Δ = [] → c' = c)
    ∧ (Δ ≠ [] → PopFacts c' c.instructions Δ)

/-! ## Spec-modelled evaluation of the core expression fragment -/

/-- Modelled from the spec: the evaluation rules (the Execution
Semantics section) restricted to the core value-producing expression
fragment — integer and boolean literals, the unary operators `!` and
`-`, and the binary operators `+ - * / < > == !=` on two Integers
together with `==`/`!=` on two Booleans (singleton identity equals
value equality there). Division by zero and everything outside the
fragment (identifiers, strings, composite literals, indexing, calls,
function literals, conditionals, mixed operand types) has no value
here and yields `none`; Integer arithmetic wraps to 64 bits, the
spec's Integer being an int64. -/
def specValue : Expr → Option Obj
  | .intLit n => some (.intV n)
  | .boolLit b => some (.boolV b)
  | .prefixE op r =>
    match specValue r with
    | some rv =>
      if op = "-" then
        match rv with
        | .intV n => some (.intV (w64 (-n)))
        | _ => none
      else if op = "!" then
        match rv with
        | .boolV b => some (.boolV (!b))
        | .intV _ => some (.boolV false)
        | _ => none
      else none
    | none => none
  | .infixE op l r =>
    match specValue l, specValue r with
    | some lv, some rv =>
      match lv, rv with
      | .intV a, .intV b =>
        if op = "+" then some (.intV (w64 (a + b)))
        else if op = "-" then some (.intV (w64 (a - b)))
        else if op = "*" then some (.intV (w64 (a * b)))
        else if op = "/" then
          if b = 0 then none else some (.intV (w64 (Int.tdiv a b)))
        else if op = "<" then some (.boolV (decide (a < b)))
        else if op = ">" then some (.boolV (decide (a > b)))
        else if op = "==" then some (.boolV (decide (a = b)))
        else if op = "!=" then some (.boolV (decide (a ≠ b)))
        else none
      | .boolV a, .boolV b =>
        if op = "==" then some (.boolV (a == b))
        else if op = "!=" then some (.boolV (!(a == b)))
        else none
      | _, _ => none
    | _, _ => none
  | _ => none

/-- Node count of an expression; it bounds both the evaluation stack
depth of its compiled code and the number of constants its compilation
appends to the pool. -/
def exprSize : Expr → Nat
  | .prefixE _ r => exprSize r + 1
  | .infixE _ l r => exprSize l + exprSize r + 1
  | _ => 1

/-- Proof device: the operand-stack effect of the unary operator byte
`b` (`11` = OpMinus, `12` = OpBang) on an operand object, as the VM's
`executeMinusOperation`/`executeBangOperator` compute it when they
complete with a push. -/
def unopSem (b : Nat) (w : Obj) : Option Obj :=
  if b = 11 then
    match w with
    | .intV n => some (.intV (w64 (-n)))
    | _ => none
  else if b = 12 then
    some (match w with
      | .boolV true => .boolV false
      | .boolV false => .boolV true
      | .nullV => .boolV true
      | _ => .boolV false)
  else none

/-- Proof device: the operand-stack effect of the binary operator byte
`b` on the two operands below the stack pointer (`u₁` the lower slot,
`u₂` the upper), when the VM's dispatch completes with a push: integer
arithmetic and comparison through the two `execute…` routines, and the
identity fallback for two Booleans. -/
def binopSem (b : Nat) (u₁ u₂ : Obj) : Option Obj :=
  match u₁, u₂ with
  | .intV a, .intV v =>
    if b = 2 ∨ b = 3 ∨ b = 4 ∨ b = 5 then
      match executeBinaryIntegerOperation b (.intV a) (.intV v) with
      | .ok res => some res
      | _ => none
    else if b = 8 ∨ b = 9 ∨ b = 10 then
      match executeIntegerComparison b (.intV a) (.intV v) with
      | .ok res => some res
      | _ => none
    else none
  | .boolV p, .boolV q =>
    if b = 8 then some (.boolV (q == p))
    else if b = 9 then some (.boolV (!(q == p)))
    else none
  | _, _ => none

/-- Proof device: the byte region `D`, run inside any larger program
with constant pool extending `cc`, executes in exactly `k` dispatch
steps, pushes the single value `u`, and touches no stack slot below the
entry stack pointer; `sz` bounds the stack headroom the run needs. -/
def SegRun (D : List Nat) (cc : List Obj) (sz k : Nat) (u : Obj) : Prop :=
  ∀ (vm : VM) (pre post : List Nat) (crest : List Obj),
    vm.instructions = pre ++ D ++ post →
    vm.constants = cc ++ crest →
    vm.stack.length = StackSize →
    vm.sp + sz ≤ StackSize →
    ∃ stk' : List Obj,
      stk'.length = StackSize
      ∧ stk'.take vm.sp = vm.stack.take vm.sp
      ∧ stk'.getD vm.sp .nilRef = u
      ∧ ∀ f0, runVM (k + f0) vm pre.length
          = runVM f0 { vm with stack := stk', sp := vm.sp + 1 } (pre.length + D.length)

/-! ## Theorems -/

/-! ### Shared basic lemmas -/

@[simp]
theorem Outcome.ok_bind (a : α) (f : α → Outcome β) : Outcome.bind (.ok a) f = f a := rfl

@[simp]
theorem Outcome.fail_bind (m : String) (f : α → Outcome β) :
    Outcome.bind (.fail m) f = .fail m := rfl

@[simp]
theorem Outcome.crash_bind (m : String) (f : α → Outcome β) :
    Outcome.bind (.crash m) f = .crash m := rfl

@[simp]
theorem Outcome.bind_eq (x : Outcome α) (f : α → Outcome β) :
    x >>= f = Outcome.bind x f := rfl

@[simp]
theorem Outcome.pure_eq (a : α) : (pure a : Outcome α) = .ok a := rfl

/-- `resolve` is the first hit along the chain of stores from the
innermost table outward. -/
theorem resolve_eq_firstHit : ∀ (t : SymbolTable) (name : String),
    t.resolve name = firstHit t.chainStores name
  | .mk outer store _, name => by
    cases outer with
    | none =>
      cases hs : storeGet store name <;>
        simp [SymbolTable.resolve, SymbolTable.chainStores, firstHit, hs]
    | some o =>
      cases hs : storeGet store name <;>
        simp [SymbolTable.resolve, SymbolTable.chainStores, firstHit, hs,
          resolve_eq_firstHit o name]

/-! ### C8: symbol table contract -/

/-- C8: for every name, `define` assigns the table's current
definition-counter value as the index (and bumps the counter), the
symbol is Global exactly when the table has no outer table and Local
otherwise; `resolve` searches from the innermost table outward and
returns the first symbol found, reporting not-found when no store in
the chain contains the name. -/
theorem C8_symbol_table_contract :
    (∀ (t : SymbolTable) (name : String),
        (t.define name).1.index = t.defCount
      ∧ (t.define name).2.defCount = t.defCount + 1
      ∧ ((t.define name).1.scope = SymbolScope.globalScope ↔ t.outer = none)
      ∧ ((t.define name).1.scope = SymbolScope.localScope ↔ t.outer ≠ none))
  ∧ (∀ (t : SymbolTable) (name : String),
        t.resolve name = firstHit t.chainStores name) := by
  constructor
  · intro t name
    match t with
    | .mk outer store d =>
      cases outer <;>
        simp [SymbolTable.define, SymbolTable.defCount, SymbolTable.outer]
  · exact resolve_eq_firstHit

/-! ### C9: node kinds absent from the compiler dispatch -/

/-- C9: `Compile` succeeds and emits nothing for string, array and hash
literals, index and call expressions, function literals and return
statements (no case in the dispatch switch matches them, and the switch
falls through to `return nil`); consequently a program consisting of a
string-literal expression statement compiles, without any error, to
bytecode holding only the statement's `OpPop`. -/
theorem C9_skipped_node_kinds :
    (∀ (c : Compiler) (s : String), compileExpr (.strLit s) c = .ok c)
  ∧ (∀ (c : Compiler) (es : List Expr), compileExpr (.arrayLit es) c = .ok c)
  ∧ (∀ (c : Compiler) (ps : List (Expr × Expr)), compileExpr (.hashLit ps) c = .ok c)
  ∧ (∀ (c : Compiler) (l i : Expr), compileExpr (.indexE l i) c = .ok c)
  ∧ (∀ (c : Compiler) (f : Expr) (args : List Expr), compileExpr (.callE f args) c = .ok c)
  ∧ (∀ (c : Compiler) (ps : List String) (b : Block), compileExpr (.funcLit ps b) c = .ok c)
  ∧ (∀ (c : Compiler) (e : Expr), compileStmt (.returnS e) c = .ok c)
  ∧ compileProgram (.cons (.exprS (.strLit "s")) .nil)
      = .ok ⟨[Opcode.opPop.toByte], []⟩ := by
  refine ⟨?_, ?_, ?_, ?_, ?_, ?_, ?_, rfl⟩ <;> intros <;> rfl

/-! ### C4: conditionals end to end -/

/-- C4: compiling and running `if (true) { 10 } else { 20 }` yields
Integer 10, and `if (false) { 10 }` yields the Null singleton. The
emitted byte streams witness the mechanism: each branch's trailing
`OpPop` is removed (`0,0,10` and `0,0,20` are bare `OpConstant`s
followed directly by the jump or the end), and the no-alternative
program contains `OpNull` (byte 15) at the patched
`OpJumpNotTruthy` target 10. -/
theorem C4_conditionals :
    compileProgram progIfTrue
      = .ok ⟨[6, 13, 0, 10, 0, 0, 0, 14, 0, 13, 0, 0, 1, 1],
             [Obj.intV 10, Obj.intV 20]⟩
  ∧ compileProgram progIfFalse
      = .ok ⟨[7, 13, 0, 10, 0, 0, 0, 14, 0, 11, 15, 1], [Obj.intV 10]⟩
  ∧ runLastPopped 100 progIfTrue = .ok (.intV 10)
  ∧ runLastPopped 100 progIfFalse = .ok .nullV := by
  exact ⟨rfl, rfl, rfl, rfl⟩

/-! ### C2: indexing -/

/-- C2 counterexample: the claim asserts `[1, 2, 3][1 + 1]` compiles
and runs to Integer 3, and that `OpIndex` on an Array and an Integer
pushes the indexed element. In fact the compiler's dispatch has no case
for index or array nodes, so the program compiles to the single byte
`OpPop` with an empty constant pool; running that underflows the stack
and panics instead of producing any value; and the VM dispatch has no
`OpIndex` case either — executing it hits the default branch and
returns the error `unknown operation: 20`. -/
theorem C2_counterexample :
    compileProgram progIndexArr = .ok ⟨[Opcode.opPop.toByte], []⟩
  ∧ runLastPopped 100 progIndexArr = .crash "runtime error: index out of range"
  ∧ runLastPopped 100 progIndexArr ≠ .ok (.intV 3)
  ∧ RunVM 10 vmAtOpIndex = .fail "unknown operation: 20" := by
  refine ⟨rfl, rfl, ?_, rfl⟩
  intro h
  rw [(rfl : runLastPopped 100 progIndexArr
    = .crash "runtime error: index out of range")] at h
  cases h

/-- C2 amended: neither the compiler nor the VM implements indexing.
`[1,2,3][1+1]` and `[1,2,3][-1]` both compile without error to the
single byte `OpPop` (the index expression is silently skipped), and
running either crashes on stack underflow rather than yielding
Integer 3 or Null; at the instruction level, executing `OpIndex` — here
on an Array below an Integer — takes the dispatch default and returns
the error `unknown operation: 20`, pushing nothing. -/
theorem C2_amended_no_indexing :
    compileProgram progIndexArr = .ok ⟨[Opcode.opPop.toByte], []⟩
  ∧ compileProgram progIndexNeg = .ok ⟨[Opcode.opPop.toByte], []⟩
  ∧ runLastPopped 100 progIndexNeg = .crash "runtime error: index out of range"
  ∧ RunVM 10 vmAtOpIndex = .fail "unknown operation: 20"
  ∧ (RunVM 10 vmAtOpIndex).isFail = true := by
  exact ⟨rfl, rfl, rfl, rfl, rfl⟩

/-! ### C10: pop underflow -/

/-- C10 counterexample: the claim asserts that executing `OpPop` with
`sp = 0` "accesses index −1 and leaves sp negative". The access is
real, but it is a Go bounds-checked slice read: `stack[-1]` panics at
once, so the run crashes — the decrement never happens, `sp` never
becomes negative, and no VM state results at all (in particular no
underflow error value is returned: the outcome is a crash, not a
`fail`). -/
theorem C10_counterexample :
    RunVM 10 (NewVM ⟨[Opcode.opPop.toByte], []⟩)
      = .crash "runtime error: index out of range"
  ∧ (RunVM 10 (NewVM ⟨[Opcode.opPop.toByte], []⟩)).isFail = false
  ∧ (∀ vm : VM, RunVM 10 (NewVM ⟨[Opcode.opPop.toByte], []⟩) ≠ .ok vm) := by
  refine ⟨rfl, rfl, ?_⟩
  intro vm h
  rw [(rfl : RunVM 10 (NewVM ⟨[Opcode.opPop.toByte], []⟩)
    = .crash "runtime error: index out of range")] at h
  cases h

/-- C10 amended: the VM guards only pushes — `push` with `sp ≥ 2048`
returns the `stack overflow` error — while `pop` is unguarded: with
`sp = 0` it attempts the out-of-range read `stack[-1]`, which is a
runtime panic (a crash without any reported underflow error), and `sp`
is never decremented below 0 (the type of `sp` in the model makes a
negative value unrepresentable because the panic precedes the
decrement). -/
theorem C10_pop_unguarded (vm : VM) (ob : Obj) (hsp : vm.sp ≥ StackSize)
    (vm₀ : VM) (hsp₀ : vm₀.sp = 0) :
    vm.push ob = .fail "stack overflow"
  ∧ vm₀.pop = .crash "runtime error: index out of range"
  ∧ (vm₀.pop).isFail = false := by
  refine ⟨?_, ?_, ?_⟩
  · simp [VM.push, hsp]
  · simp [VM.pop, hsp₀]
  · simp [VM.pop, hsp₀, Outcome.isFail]

/-- Witness for C10 amended at a full VM (sp 2048) and a fresh VM. -/
theorem C10_pop_unguarded_witness :
    ({ NewVM ⟨[], []⟩ with sp := StackSize } : VM).push .nullV = .fail "stack overflow"
  ∧ (NewVM ⟨[], []⟩).pop = .crash "runtime error: index out of range"
  ∧ ((NewVM ⟨[], []⟩).pop).isFail = false :=
  C10_pop_unguarded { NewVM ⟨[], []⟩ with sp := StackSize } .nullV
    (by simp) (NewVM ⟨[], []⟩) rfl

/-! ### C6: binary arithmetic -/

/-- Reduction of `executeBinaryOperation` on a stack whose top two
slots hold Integers: the two pops take the right operand from
`stack[sp-1]` and the left from `stack[sp-2]`, and the integer routine's
result is pushed. -/
theorem execBinaryOp_int (vm : VM) (op : Nat) (lv rv : Int)
    (hsp2 : 2 ≤ vm.sp) (hsp : vm.sp ≤ StackSize)
    (hr : vm.stack.getD (vm.sp - 1) .nilRef = .intV rv)
    (hl : vm.stack.getD (vm.sp - 2) .nilRef = .intV lv) :
    vm.executeBinaryOperation op
      = (executeBinaryIntegerOperation op (.intV lv) (.intV rv)).bind
          (fun result => VM.push { vm with sp := vm.sp - 2 } result) := by
  have hc1 : ¬(vm.sp = 0 ∨ StackSize < vm.sp) := by omega
  have hc2 : ¬(vm.sp - 1 = 0 ∨ StackSize < vm.sp - 1) := by
    simp only [StackSize] at *; omega
  have h21 : vm.sp - 1 - 1 = vm.sp - 2 := by omega
  simp only [VM.executeBinaryOperation, VM.pop, hc1, hc2, if_neg,
    not_false_iff, Outcome.bind_eq, Outcome.ok_bind, h21, hr, hl, objType]
  simp

/-- C6: the arithmetic handler pops the right operand first (from
`stack[sp-1]`) and then the left (from `stack[sp-2]`); on two Integer
operands it pushes `left OP right` (Go `int64` semantics: wrapping
addition, subtraction and multiplication, truncating division); and
`OpDiv` with right operand Integer 0 returns the error `division by
zero` — no resulting state, so nothing is pushed. -/
theorem C6_binary_arithmetic (vm : VM) (lv rv : Int)
    (hsp2 : 2 ≤ vm.sp) (hsp : vm.sp ≤ StackSize)
    (hr : vm.stack.getD (vm.sp - 1) .nilRef = .intV rv)
    (hl : vm.stack.getD (vm.sp - 2) .nilRef = .intV lv) :
    vm.executeBinaryOperation Opcode.opAdd.toByte
      = .ok { vm with stack := vm.stack.set (vm.sp - 2) (.intV (w64 (lv + rv))),
                      sp := vm.sp - 1 }
  ∧ vm.executeBinaryOperation Opcode.opSub.toByte
      = .ok { vm with stack := vm.stack.set (vm.sp - 2) (.intV (w64 (lv - rv))),
                      sp := vm.sp - 1 }
  ∧ vm.executeBinaryOperation Opcode.opMul.toByte
      = .ok { vm with stack := vm.stack.set (vm.sp - 2) (.intV (w64 (lv * rv))),
                      sp := vm.sp - 1 }
  ∧ (rv ≠ 0 → vm.executeBinaryOperation Opcode.opDiv.toByte
      = .ok { vm with stack := vm.stack.set (vm.sp - 2) (.intV (w64 (Int.tdiv lv rv))),
                      sp := vm.sp - 1 })
  ∧ (rv = 0 → vm.executeBinaryOperation Opcode.opDiv.toByte = .fail "division by zero") := by
  have hpush : ∀ result : Obj,
      VM.push { vm with sp := vm.sp - 2 } result
        = .ok { vm with stack := vm.stack.set (vm.sp - 2) result, sp := vm.sp - 1 } := by
    intro result
    have : ¬(vm.sp - 2 ≥ StackSize) := by simp only [StackSize] at *; omega
    have hinc : vm.sp - 2 + 1 = vm.sp - 1 := by omega
    simp [VM.push, this, hinc]
  have hbase : ∀ op, vm.executeBinaryOperation op
      = (executeBinaryIntegerOperation op (.intV lv) (.intV rv)).bind
          (fun result => VM.push { vm with sp := vm.sp - 2 } result) :=
    fun op => execBinaryOp_int vm op lv rv hsp2 hsp hr hl
  refine ⟨?_, ?_, ?_, ?_, ?_⟩
  · rw [hbase]; simp [executeBinaryIntegerOperation, Opcode.toByte, hpush]
  · rw [hbase]; simp [executeBinaryIntegerOperation, Opcode.toByte, hpush]
  · rw [hbase]; simp [executeBinaryIntegerOperation, Opcode.toByte, hpush]
  · intro hnz; rw [hbase]
    simp [executeBinaryIntegerOperation, Opcode.toByte, hnz, hpush]
  · intro hz; rw [hbase]
    simp [executeBinaryIntegerOperation, Opcode.toByte, hz]

/-- Witness for C6 at a concrete machine: stack `[7, 2]` for the
arithmetic conjuncts and `[7, 0]` for the division-by-zero error. -/
theorem C6_binary_arithmetic_witness :
    vmTwoInts.executeBinaryOperation Opcode.opAdd.toByte
      = .ok { vmTwoInts with stack := vmTwoInts.stack.set 0 (.intV 9), sp := 1 }
  ∧ vmDivZero.executeBinaryOperation Opcode.opDiv.toByte = .fail "division by zero" := by
  constructor
  · have h := (C6_binary_arithmetic vmTwoInts 7 2 (by decide) (by decide) rfl rfl).1
    simpa using h
  · exact (C6_binary_arithmetic vmDivZero 7 0 (by decide) (by decide) rfl rfl).2.2.2.2 rfl

/-! ### C7: comparison dispatch -/

/-- Reduction of `executeComparison`: pops right (top) then left. -/
theorem execComparison_pops (vm : VM) (op : Nat)
    (hsp2 : 2 ≤ vm.sp) (hsp : vm.sp ≤ StackSize) :
    vm.executeComparison op
      = (let right := vm.stack.getD (vm.sp - 1) .nilRef
         let left := vm.stack.getD (vm.sp - 2) .nilRef
         let vm' : VM := { vm with sp := vm.sp - 2 }
         match objType left with
         | none => .crash "runtime error: invalid memory address or nil pointer dereference"
         | some lt =>
           if lt = "INTEGER" then
             match objType right with
             | none => .crash "runtime error: invalid memory address or nil pointer dereference"
             | some rt =>
               if rt = "INTEGER" then
                 (executeIntegerComparison op left right).bind (fun r => vm'.push r)
               else vm'.comparisonFallback op left right
           else vm'.comparisonFallback op left right) := by
  have hc1 : ¬(vm.sp = 0 ∨ StackSize < vm.sp) := by omega
  have hc2 : ¬(vm.sp - 1 = 0 ∨ StackSize < vm.sp - 1) := by
    simp only [StackSize] at *; omega
  have h21 : vm.sp - 1 - 1 = vm.sp - 2 := by omega
  simp only [VM.executeComparison, VM.pop, hc1, hc2, if_neg, not_false_iff,
    Outcome.bind_eq, Outcome.ok_bind, h21]

/-- C7: `OpEqual`, `OpNotEqual` and `OpGreaterThan` pop the right
operand first (from `stack[sp-1]`) and then the left (from
`stack[sp-2]`). Two Integer operands compare numerically. Otherwise —
shown for all pairs of Boolean/Null singleton operands — `OpEqual` and
`OpNotEqual` push the identity comparison `right == left` (value
equality of the Boolean singletons, Null equal only to Null), and
`OpGreaterThan` returns an `invalid operator` error. -/
theorem C7_comparison_dispatch (vm : VM)
    (hsp2 : 2 ≤ vm.sp) (hsp : vm.sp ≤ StackSize) :
    (∀ lv rv : Int,
      vm.stack.getD (vm.sp - 1) .nilRef = .intV rv →
      vm.stack.getD (vm.sp - 2) .nilRef = .intV lv →
        vm.executeComparison Opcode.opGreaterThan.toByte
          = .ok { vm with
              stack := vm.stack.set (vm.sp - 2)
                (boolNativeToBoolObject (decide (lv > rv))),
              sp := vm.sp - 1 }
      ∧ vm.executeComparison Opcode.opEqual.toByte
          = .ok { vm with
              stack := vm.stack.set (vm.sp - 2)
                (boolNativeToBoolObject (decide (lv = rv))),
              sp := vm.sp - 1 }
      ∧ vm.executeComparison Opcode.opNotEqual.toByte
          = .ok { vm with
              stack := vm.stack.set (vm.sp - 2)
                (boolNativeToBoolObject (decide (lv ≠ rv))),
              sp := vm.sp - 1 })
  ∧ (∀ l r : Obj,
      (l = .boolV true ∨ l = .boolV false ∨ l = .nullV) →
      (r = .boolV true ∨ r = .boolV false ∨ r = .nullV) →
      vm.stack.getD (vm.sp - 1) .nilRef = r →
      vm.stack.getD (vm.sp - 2) .nilRef = l →
        vm.executeComparison Opcode.opEqual.toByte
          = .ok { vm with
              stack := vm.stack.set (vm.sp - 2) (boolNativeToBoolObject (sameRef r l)),
              sp := vm.sp - 1 }
      ∧ vm.executeComparison Opcode.opNotEqual.toByte
          = .ok { vm with
              stack := vm.stack.set (vm.sp - 2) (boolNativeToBoolObject (!sameRef r l)),
              sp := vm.sp - 1 }
      ∧ (vm.executeComparison Opcode.opGreaterThan.toByte).isFail = true)
  ∧ (∀ a b : Bool, sameRef (.boolV a) (.boolV b) = (a == b))
  ∧ sameRef .nullV .nullV = true
  ∧ (∀ a : Bool, sameRef (.boolV a) .nullV = false ∧ sameRef .nullV (.boolV a) = false) := by
  have hpush : ∀ result : Obj,
      VM.push { vm with sp := vm.sp - 2 } result
        = .ok { vm with stack := vm.stack.set (vm.sp - 2) result, sp := vm.sp - 1 } := by
    intro result
    have hlt : ¬(vm.sp - 2 ≥ StackSize) := by simp only [StackSize] at *; omega
    have hinc : vm.sp - 2 + 1 = vm.sp - 1 := by omega
    simp [VM.push, hlt, hinc]
  refine ⟨?_, ?_, ?_, rfl, ?_⟩
  · intro lv rv hr hl
    have hbase : ∀ op, vm.executeComparison op
        = (executeIntegerComparison op (.intV lv) (.intV rv)).bind
            (fun r => VM.push { vm with sp := vm.sp - 2 } r) := by
      intro op
      rw [execComparison_pops vm op hsp2 hsp]
      simp only [hr, hl, objType]
      simp
    refine ⟨?_, ?_, ?_⟩ <;>
      rw [hbase] <;>
      simp [executeIntegerComparison, Opcode.toByte, hpush]
  · intro l r hlc hrc hr hl
    have hbase : ∀ op, vm.executeComparison op
        = VM.comparisonFallback { vm with sp := vm.sp - 2 } op l r := by
      intro op
      rw [execComparison_pops vm op hsp2 hsp]
      simp only [hr, hl]
      rcases hlc with h | h | h <;> subst h <;> simp [objType]
    have hfb : ∀ op, VM.comparisonFallback { vm with sp := vm.sp - 2 } op l r
        = (if op = Opcode.opEqual.toByte then
            VM.push { vm with sp := vm.sp - 2 } (boolNativeToBoolObject (sameRef r l))
          else if op = Opcode.opNotEqual.toByte then
            VM.push { vm with sp := vm.sp - 2 } (boolNativeToBoolObject (!sameRef r l))
          else
            match objType l, objType r with
            | some lt, some rt =>
              .fail ("invalid operator: " ++ toString op ++ " (" ++ lt ++ " " ++ rt ++ ")")
            | _, _ =>
              .crash "runtime error: invalid memory address or nil pointer dereference") := by
      intro op
      rfl
    refine ⟨?_, ?_, ?_⟩
    · rw [hbase, hfb]; simp [Opcode.toByte, hpush]
    · rw [hbase, hfb]; simp [Opcode.toByte, hpush]
    · rw [hbase, hfb]
      rcases hlc with h | h | h <;> rcases hrc with h' | h' | h' <;>
        subst h <;> subst h' <;> simp [Opcode.toByte, objType, Outcome.isFail]
  · intro a b; rfl
  · intro a; exact ⟨rfl, rfl⟩

/-- Witness for C7 at concrete machines: Integers 7 and 2 for the
numeric conjuncts, and Null (right) over True (left) for the identity
conjuncts. -/
theorem C7_comparison_dispatch_witness :
    vmTwoInts.executeComparison Opcode.opGreaterThan.toByte
      = .ok { vmTwoInts with stack := vmTwoInts.stack.set 0 (.boolV true), sp := 1 }
  ∧ vmBoolNull.executeComparison Opcode.opEqual.toByte
      = .ok { vmBoolNull with stack := vmBoolNull.stack.set 0 (.boolV false), sp := 1 }
  ∧ (vmBoolNull.executeComparison Opcode.opGreaterThan.toByte).isFail = true := by
  refine ⟨?_, ?_, ?_⟩
  · have h := ((C7_comparison_dispatch vmTwoInts (by decide) (by decide)).1
      7 2 rfl rfl).1
    simpa using h
  · have h := ((C7_comparison_dispatch vmBoolNull (by decide) (by decide)).2.1
      (.boolV true) .nullV (Or.inl rfl) (Or.inr (Or.inr rfl)) rfl rfl).1
    simpa using h
  · exact ((C7_comparison_dispatch vmBoolNull (by decide) (by decide)).2.1
      (.boolV true) .nullV (Or.inl rfl) (Or.inr (Or.inr rfl)) rfl rfl).2.2

/-! ### C1: encode/decode round-trip -/

theorem set_append_len (pre l : List α) (x : α) :
    (pre ++ l).set pre.length x = pre ++ l.set 0 x := by
  induction pre with
  | nil => rfl
  | cons h t ih => simp [List.set, ih]

theorem overwrite2_at (pre : List Nat) (a b x y : Nat) (rest : List Nat) :
    overwriteAt (pre ++ a :: b :: rest) pre.length [x, y] = pre ++ x :: y :: rest := by
  show overwriteAt ((pre ++ a :: b :: rest).set pre.length x) (pre.length + 1) [y]
    = pre ++ x :: y :: rest
  rw [set_append_len]
  show overwriteAt ((pre ++ x :: b :: rest).set (pre.length + 1) y) (pre.length + 2) []
    = pre ++ x :: y :: rest
  have h1 : pre.length + 1 = (pre ++ [x]).length := by simp
  rw [show pre ++ x :: b :: rest = (pre ++ [x]) ++ b :: rest by simp, h1,
    set_append_len]
  simp [overwriteAt]

theorem zip_replicate_two (ops : List Nat) :
    ops.zip (List.replicate ops.length 2) = ops.map (fun o => (o, 2)) := by
  induction ops with
  | nil => rfl
  | cons o os ih => simp [List.replicate, ih]

theorem sum_replicate_two (n : Nat) : (List.replicate n 2).sum = 2 * n := by
  induction n with
  | zero => rfl
  | succ m ih => simp [List.replicate, ih]; omega

theorem putOperandsLoop_all2 (ops : List Nat) : ∀ (pre rest : List Nat),
    rest.length = 2 * ops.length →
    putOperandsLoop (ops.map (fun o => (o, 2))) pre.length (pre ++ rest)
      = pre ++ (ops.map enc2).flatten := by
  induction ops with
  | nil =>
    intro pre rest hlen
    simp at hlen
    simp [putOperandsLoop, hlen]
  | cons o os ih =>
    intro pre rest hlen
    match rest, hlen with
    | r1 :: r2 :: rest', hlen =>
      have hrest' : rest'.length = 2 * os.length := by
        simp [List.length_cons] at hlen; omega
      show putOperandsLoop ((o, 2) :: os.map (fun o => (o, 2))) pre.length
        (pre ++ r1 :: r2 :: rest') = pre ++ (enc2 o :: os.map enc2).flatten
      simp only [putOperandsLoop]
      rw [show overwriteAt (pre ++ r1 :: r2 :: rest') pre.length
          [o % 65536 / 256, o % 256] = pre ++ (o % 65536 / 256) :: (o % 256) :: rest'
        from overwrite2_at pre r1 r2 _ _ rest']
      have hpre : pre.length + 2 = (pre ++ enc2 o).length := by simp [enc2]
      have hshape : pre ++ (o % 65536 / 256) :: (o % 256) :: rest'
          = (pre ++ enc2 o) ++ rest' := by simp [enc2]
      rw [hpre, hshape, ih (pre ++ enc2 o) rest' hrest']
      simp [enc2]

theorem MakeInstruction_all2 (op : Opcode) (ops : List Nat)
    (hw : op.operandWidth = List.replicate ops.length 2) :
    MakeInstruction op ops = op.toByte :: (ops.map enc2).flatten := by
  have hrep : (List.replicate (1 + (List.replicate ops.length 2).sum) 0 : List Nat)
      = 0 :: List.replicate (2 * ops.length) 0 := by
    rw [sum_replicate_two, Nat.add_comm, List.replicate_succ]
  simp only [MakeInstruction, hw, hrep, zip_replicate_two, List.set]
  show putOperandsLoop (ops.map fun o => (o, 2)) 1
    (op.toByte :: List.replicate (2 * ops.length) 0) = _
  have h1 : (1 : Nat) = ([op.toByte] : List Nat).length := rfl
  rw [h1, show op.toByte :: List.replicate (2 * ops.length) 0
    = [op.toByte] ++ List.replicate (2 * ops.length) 0 from rfl]
  rw [putOperandsLoop_all2 ops [op.toByte] _ (by simp)]
  rfl

theorem readLoop_enc (ops : List Nat) : ∀ pre : List Nat,
    (∀ x ∈ ops, x < 65536) →
    readOperandsLoop (List.replicate ops.length 2) (pre ++ (ops.map enc2).flatten)
        pre.length
      = (ops, pre.length + 2 * ops.length) := by
  induction ops with
  | nil => intro pre _; simp [readOperandsLoop]
  | cons o os ih =>
    intro pre hfit
    show readOperandsLoop (2 :: List.replicate os.length 2) _ pre.length = _
    simp only [readOperandsLoop]
    have hshape : pre ++ ((o :: os).map enc2).flatten
        = pre ++ (o % 65536 / 256) :: (o % 256) :: (os.map enc2).flatten := by
      simp [enc2]
    have hdrop : (pre ++ (o % 65536 / 256) :: (o % 256) :: (os.map enc2).flatten).drop
        pre.length = (o % 65536 / 256) :: (o % 256) :: (os.map enc2).flatten := by
      rw [List.drop_left]
    have hval : ReadUint16 ((o % 65536 / 256) :: (o % 256) :: (os.map enc2).flatten)
        = o := by
      show 256 * (o % 65536 / 256) + o % 256 = o
      rw [Nat.mod_eq_of_lt (hfit o (by simp))]
      have := Nat.div_add_mod o 256
      omega
    have hrec := ih (pre ++ enc2 o) (fun x hx => hfit x (by simp [hx]))
    have hpre2 : (pre ++ enc2 o).length = pre.length + 2 := by simp [enc2]
    rw [hshape, hdrop, hval]
    have hshape2 : pre ++ (o % 65536 / 256) :: (o % 256) :: (os.map enc2).flatten
        = (pre ++ enc2 o) ++ (os.map enc2).flatten := by simp [enc2]
    rw [hshape2, show pre.length + 2 = (pre ++ enc2 o).length from hpre2.symm, hrec]
    simp [hpre2]
    omega

/-- C1 amended: for every opcode whose declared operand widths are all
2 — that is, every opcode except `OpGetLocal` and `OpSetLocal` — and
every operand vector of matching length whose entries fit 16 bits,
`ReadOperands(def, MakeInstruction(op, operands)[1:])` returns exactly
the original operands and consumes exactly the sum of the declared
widths. For the two width-1 opcodes both loops skip the operand (their
`switch width` only handles `case 2:`): the encoder leaves the operand
byte zero and the decoder returns operand 0, though the byte count
consumed still equals the width sum. -/
theorem C1_roundtrip_width2 :
    (∀ (op : Opcode) (operands : List Nat),
      operands.length = op.operandWidth.length →
      (∀ w ∈ op.operandWidth, w = 2) →
      (∀ x ∈ operands, x < 65536) →
      ReadOperands op.operandWidth ((MakeInstruction op operands).drop 1)
        = (operands, op.operandWidth.sum))
  ∧ (∀ n : Nat, MakeInstruction .opGetLocal [n] = [Opcode.opGetLocal.toByte, 0])
  ∧ (∀ n : Nat, MakeInstruction .opSetLocal [n] = [Opcode.opSetLocal.toByte, 0])
  ∧ (∀ b : Nat, ReadOperands Opcode.opGetLocal.operandWidth [b] = ([0], 1)) := by
  refine ⟨?_, fun n => rfl, fun n => rfl, fun b => rfl⟩
  intro op operands hlen hw hfit
  have hrw : op.operandWidth = List.replicate operands.length 2 :=
    List.eq_replicate_iff.mpr ⟨hlen.symm, hw⟩
  rw [MakeInstruction_all2 op operands hrw]
  show ReadOperands op.operandWidth ((operands.map enc2).flatten) = _
  rw [ReadOperands, hrw, sum_replicate_two]
  have h := readLoop_enc operands [] hfit
  simpa using h

/-- Witness for the C1 round-trip at `OpConstant` with operand 65534
(and the width-1 conjuncts at operand 5 and byte 9). -/
theorem C1_roundtrip_width2_witness :
    ReadOperands Opcode.opConstant.operandWidth
      ((MakeInstruction .opConstant [65534]).drop 1)
      = ([65534], Opcode.opConstant.operandWidth.sum)
  ∧ MakeInstruction .opGetLocal [5] = [Opcode.opGetLocal.toByte, 0]
  ∧ ReadOperands Opcode.opGetLocal.operandWidth [9] = ([0], 1) :=
  ⟨C1_roundtrip_width2.1 .opConstant [65534] (by decide) (by decide) (by decide),
   C1_roundtrip_width2.2.1 5,
   C1_roundtrip_width2.2.2.2 9⟩

/-- C1 counterexample: the claim quantifies over every opcode with a
definition. `OpGetLocal` has the definition `[1]` (one 1-byte operand),
and 5 fits that width, yet `MakeInstruction(OpGetLocal, 5)` encodes the
bytes `[24, 0]` and decoding returns operand 0, not 5 — the round-trip
loses every width-1 operand. -/
theorem C1_counterexample :
    Opcode.opGetLocal.operandWidth = [1]
  ∧ (5 : Nat) < 2 ^ 8
  ∧ MakeInstruction .opGetLocal [5] = [24, 0]
  ∧ ReadOperands Opcode.opGetLocal.operandWidth
      ((MakeInstruction .opGetLocal [5]).drop 1) = ([0], 1)
  ∧ ([0], 1) ≠ (([5], 1) : List Nat × Nat) := by
  refine ⟨rfl, by decide, rfl, rfl, by decide⟩

end BytecodeComp


namespace BytecodeComp

theorem getD_append_len (P l : List Nat) (d : Nat) :
    (P ++ l).getD P.length d = l.getD 0 d := by
  induction P with
  | nil => rfl
  | cons h t ih => simpa using ih

theorem drop_append_len_le (w : Nat) (A B : List Nat) (h : w ≤ A.length) :
    (A ++ B).drop w = A.drop w ++ B := by
  induction A generalizing w with
  | nil => simp at h; simp [h]
  | cons a t ih =>
    cases w with
    | zero => simp
    | succ w' => simpa using ih w' (by simpa using h)

theorem take_append_add (A B : List Nat) (n : Nat) :
    (A ++ B).take (A.length + n) = A ++ B.take n := by
  induction A with
  | nil => simp
  | cons a t ih => simpa [Nat.succ_add] using ih

theorem overwrite_fill (news : List Nat) : ∀ (P olds S : List Nat),
    olds.length = news.length →
    overwriteAt (P ++ olds ++ S) P.length news = P ++ news ++ S := by
  induction news with
  | nil =>
    intro P olds S h
    simp at h
    simp [overwriteAt, h]
  | cons n ns ih =>
    intro P olds S h
    match olds, h with
    | o :: os, h =>
      have hlen : os.length = ns.length := by simpa using h
      show overwriteAt ((P ++ (o :: os) ++ S).set P.length n) (P.length + 1) ns
        = P ++ n :: ns ++ S
      rw [show P ++ (o :: os) ++ S = P ++ o :: (os ++ S) by simp, set_append_len]
      show overwriteAt (P ++ n :: (os ++ S)) (P.length + 1) ns = P ++ n :: ns ++ S
      have h1 : P.length + 1 = (P ++ [n]).length := by simp
      rw [show P ++ n :: (os ++ S) = (P ++ [n]) ++ os ++ S by simp, h1,
        ih (P ++ [n]) os S hlen]
      simp

theorem dropLast_append_ne_nil (A B : List Nat) (h : B ≠ []) :
    (A ++ B).dropLast = A ++ B.dropLast := by
  match B, h with
  | b :: bs, _ =>
    induction A with
    | nil => simp
    | cons a t ih =>
      show ((a :: t) ++ b :: bs).dropLast = a :: (t ++ (b :: bs).dropLast)
      rw [show (a :: t) ++ b :: bs = a :: (t ++ b :: bs) from rfl]
      cases htb : t ++ b :: bs with
      | nil => simp at htb
      | cons x xs =>
        rw [List.dropLast_cons₂]
        rw [← htb, ih]




set_option maxHeartbeats 1000000

theorem walk_monotone (A : List Nat) (t : Nat) (h : jumpsOkWalk A t = true) :
    ∀ t', t ≤ t' → jumpsOkWalk A t' = true := by
  induction A, t using jumpsOkWalk.induct with
  | case1 t => intro t' _; rw [jumpsOkWalk]
  | case2 b rest t hb ih =>
    intro t' hle
    rw [jumpsOkWalk] at h ⊢
    rw [hb] at h ⊢
    exact ih h t' hle
  | case3 b rest t op hb hshort =>
    intro t' hle
    rw [jumpsOkWalk] at h
    rw [hb] at h
    simp [hshort] at h
  | case4 b rest t op hb hshort ih =>
    intro t' hle
    rw [jumpsOkWalk] at h ⊢
    rw [hb] at h ⊢
    simp only [if_neg hshort, Bool.and_eq_true] at h ⊢
    refine ⟨?_, ih h.2 t' hle⟩
    rcases h with ⟨h1, _⟩
    by_cases hj : b = 13 ∨ b = 14
    · simp only [if_pos hj] at h1 ⊢
      simp at h1 ⊢
      omega
    · simp [hj]

theorem walk_append (A : List Nat) (t : Nat) (hA : jumpsOkWalk A t = true) :
    ∀ B, jumpsOkWalk B t = true → jumpsOkWalk (A ++ B) t = true := by
  induction A, t using jumpsOkWalk.induct with
  | case1 t => intro B hB; simpa using hB
  | case2 b rest t hb ih =>
    intro B hB
    rw [jumpsOkWalk] at hA
    rw [List.cons_append, jumpsOkWalk]
    rw [hb] at hA ⊢
    exact ih hA B hB
  | case3 b rest t op hb hshort =>
    rw [jumpsOkWalk, hb] at hA
    simp [hshort] at hA
  | case4 b rest t op hb hshort ih =>
    intro B hB
    rw [jumpsOkWalk, hb] at hA
    rw [List.cons_append, jumpsOkWalk, hb]
    simp only [if_neg hshort, Bool.and_eq_true] at hA
    have hlenok : ¬((rest ++ B).length < op.operandWidth.sum) := by
      simp only [List.length_append]
      omega
    simp only [if_neg hlenok, Bool.and_eq_true]
    constructor
    · rcases hA with ⟨h1, _⟩
      by_cases hj : b = 13 ∨ b = 14
      · simp only [if_pos hj] at h1 ⊢
        have hw2 : op.operandWidth.sum = 2 := by
          rcases hj with h | h <;> subst h <;>
            cases hb.symm.trans rfl <;> simp [Opcode.operandWidth]
        have hr2 : 2 ≤ rest.length := by omega
        have hg0 : (rest ++ B).getD 0 0 = rest.getD 0 0 := by
          cases rest with
          | nil => simp at hr2
          | cons x xs => rfl
        have hg1 : (rest ++ B).getD 1 0 = rest.getD 1 0 := by
          cases rest with
          | nil => simp at hr2
          | cons x xs =>
            cases xs with
            | nil => simp at hr2
            | cons y ys => rfl
        rw [hg0, hg1]
        exact h1
      · simp [hj]
    · rw [drop_append_len_le _ _ _ (by omega)]
      exact ih hA.2 B hB

theorem walk_one_nonjump (b : Nat) (op : Opcode) (obs : List Nat) (t : Nat)
    (hb : Lookup b = some op) (hlen : obs.length = op.operandWidth.sum)
    (h13 : b ≠ 13) (h14 : b ≠ 14) :
    jumpsOkWalk (b :: obs) t = true := by
  rw [jumpsOkWalk, hb]
  have h1 : ¬(obs.length < op.operandWidth.sum) := by omega
  have h2 : ¬(b = 13 ∨ b = 14) := by tauto
  simp only [if_neg h1, if_neg h2, Bool.true_and]
  rw [← hlen, List.drop_length, jumpsOkWalk]

theorem walk_one_jump (b h l t : Nat) (hb : b = 13 ∨ b = 14)
    (hle : 256 * h + l ≤ t) :
    jumpsOkWalk [b, h, l] t = true := by
  rcases hb with h' | h' <;> subst h' <;>
    simp [jumpsOkWalk, Lookup, Opcode.operandWidth] <;> omega

theorem enc2_le (T t : Nat) (h : T ≤ t) :
    256 * (T % 65536 / 256) + T % 256 ≤ t := by
  have h1 : T % 65536 % 256 = T % 256 := Nat.mod_mod_of_dvd T (by norm_num)
  have h2 := Nat.div_add_mod (T % 65536) 256
  have h3 : T % 65536 ≤ T := Nat.mod_le T 65536
  omega

theorem walk_one_jump_enc (b T t : Nat) (hb : b = 13 ∨ b = 14) (hle : T ≤ t) :
    jumpsOkWalk [b, T % 65536 / 256, T % 256] t = true :=
  walk_one_jump b _ _ t hb (enc2_le T t hle)

/-- Patching a jump instruction in place: `changeOperand` at the start
of a 3-byte jump instruction rewrites exactly its operand bytes and
touches no other compiler field. -/
theorem changeOperand_jump (c : Compiler) (P S : List Nat) (jb a₁ a₂ T : Nat)
    (hb : jb = 13 ∨ jb = 14) (hins : c.instructions = P ++ jb :: a₁ :: a₂ :: S) :
    (c.changeOperand P.length T).instructions
        = P ++ jb :: (T % 65536 / 256) :: (T % 256) :: S
    ∧ (c.changeOperand P.length T).constants = c.constants
    ∧ (c.changeOperand P.length T).lastInstruction = c.lastInstruction
    ∧ (c.changeOperand P.length T).previousInstruction = c.previousInstruction
    ∧ (c.changeOperand P.length T).symbolTable = c.symbolTable := by
  rcases hb with hb' | hb' <;> subst hb'
  · have hbyte : c.instructions.getD P.length 0 = 13 := by
      rw [hins, getD_append_len]; rfl
    have hstep : c.changeOperand P.length T
        = c.replaceInstruction P.length (MakeInstruction .opJumpNotTruthy [T]) := by
      unfold Compiler.changeOperand
      rw [hbyte]
      rfl
    rw [hstep]
    unfold Compiler.replaceInstruction
    refine ⟨?_, rfl, rfl, rfl, rfl⟩
    show overwriteAt c.instructions P.length (MakeInstruction .opJumpNotTruthy [T]) = _
    rw [hins, show MakeInstruction .opJumpNotTruthy [T]
      = [13, T % 65536 / 256, T % 256] from rfl]
    have := overwrite_fill [13, T % 65536 / 256, T % 256] P [13, a₁, a₂] S rfl
    simpa using this
  · have hbyte : c.instructions.getD P.length 0 = 14 := by
      rw [hins, getD_append_len]; rfl
    have hstep : c.changeOperand P.length T
        = c.replaceInstruction P.length (MakeInstruction .opJump [T]) := by
      unfold Compiler.changeOperand
      rw [hbyte]
      rfl
    rw [hstep]
    unfold Compiler.replaceInstruction
    refine ⟨?_, rfl, rfl, rfl, rfl⟩
    show overwriteAt c.instructions P.length (MakeInstruction .opJump [T]) = _
    rw [hins, show MakeInstruction .opJump [T]
      = [14, T % 65536 / 256, T % 256] from rfl]
    have := overwrite_fill [14, T % 65536 / 256, T % 256] P [14, a₁, a₂] S rfl
    simpa using this

@[simp]
theorem except_bind_eq (x : Except String α) (f : α → Except String β) :
    x >>= f = Except.bind x f := rfl

@[simp]
theorem except_bind_ok (a : α) (f : α → Except String β) :
    Except.bind (Except.ok a : Except String α) f = f a := rfl

@[simp]
theorem except_bind_err (m : String) (f : α → Except String β) :
    Except.bind (Except.error m : Except String α) f = Except.error m := rfl

theorem Lookup_toByte_inv (op : Opcode) : Lookup op.toByte = some op := by
  cases op <;> rfl

theorem make_u16 (op : Opcode) (hop : op.operandWidth = [2]) (i : Nat) :
    MakeInstruction op [i] = op.toByte :: enc2 i := by
  have h := MakeInstruction_all2 op [i] (by rw [hop]; rfl)
  simpa using h

theorem make_zeroary (op : Opcode) (hop : op.operandWidth = []) :
    MakeInstruction op [] = [op.toByte] := by
  simp [MakeInstruction, hop, putOperandsLoop, List.replicate, List.set]

theorem walk_u16_nonjump (op : Opcode) (hop : op.operandWidth = [2])
    (h13 : op.toByte ≠ 13) (h14 : op.toByte ≠ 14) (i t : Nat) :
    jumpsOkWalk (op.toByte :: enc2 i) t = true :=
  walk_one_nonjump op.toByte op (enc2 i) t (Lookup_toByte_inv op)
    (by rw [hop]; rfl) h13 h14

theorem walk_zeroary (op : Opcode) (hop : op.operandWidth = [])
    (h13 : op.toByte ≠ 13) (h14 : op.toByte ≠ 14) (t : Nat) :
    jumpsOkWalk [op.toByte] t = true :=
  walk_one_nonjump op.toByte op [] t (Lookup_toByte_inv op) (by rw [hop]; rfl) h13 h14

theorem emit_fields (c : Compiler) (op : Opcode) (operands : List Nat) :
    (c.emit op operands).1 = c.instructions.length
  ∧ (c.emit op operands).2.instructions = c.instructions ++ MakeInstruction op operands
  ∧ (c.emit op operands).2.constants = c.constants
  ∧ (c.emit op operands).2.lastInstruction = ⟨op, c.instructions.length⟩
  ∧ (c.emit op operands).2.previousInstruction = c.lastInstruction
  ∧ (c.emit op operands).2.symbolTable = c.symbolTable :=
  ⟨rfl, rfl, rfl, rfl, rfl, rfl⟩

theorem blockOut_chain (c c₁ c₂ : Compiler) (h1 : BlockOut c c₁) (h2 : BlockOut c₁ c₂) :
    BlockOut c c₂ := by
  obtain ⟨D1, hi1, hw1, he1, hp1⟩ := h1
  obtain ⟨D2, hi2, hw2, he2, hp2⟩ := h2
  refine ⟨D1 ++ D2, by rw [hi2, hi1]; simp, ?_, ?_, ?_⟩
  · have hlen : c₁.instructions.length ≤ c₂.instructions.length := by
      rw [hi2]; simp
    exact walk_append D1 _ (walk_monotone D1 _ hw1 _ hlen) D2 hw2
  · intro hnil
    rcases List.append_eq_nil.mp hnil with ⟨h1n, h2n⟩
    rw [he2 h2n]
    exact he1 h1n
  · intro hne hpop
    by_cases hd2 : D2 = []
    · subst hd2
      have hc21 : c₂ = c₁ := he2 rfl
      subst hc21
      have hd1 : D1 ≠ [] := by simpa using hne
      obtain ⟨hg, hpos, hwd⟩ := hp1 hd1 hpop
      exact ⟨by simpa using hg, by simpa using hpos, by simpa using hwd⟩
    · obtain ⟨hg, hpos, hwd⟩ := hp2 hd2 hpop
      have hlen1 : D1.length + D2.length - 1 = D1.length + (D2.length - 1) := by
        have : 1 ≤ D2.length := List.length_pos.mpr hd2
        omega
      refine ⟨?_, ?_, ?_⟩
      · rw [List.getLast?_append_of_ne_nil _ hd2]
        exact hg
      · rw [hpos, hi1]
        simp only [List.length_append]
        omega
      · rw [dropLast_append_ne_nil _ _ hd2]
        have hb2 : c.instructions.length + (D1.length + D2.length - 1)
            = c₁.instructions.length + (D2.length - 1) := by
          rw [hi1]; simp only [List.length_append]; omega
        rw [List.length_append, hb2]
        refine walk_append D1 _ ?_ _ hwd
        refine walk_monotone D1 _ hw1 _ ?_
        omega

theorem emit_zeroary_step (c c₁ : Compiler) (D : List Nat) (op : Opcode)
    (hop : op.operandWidth = []) (h13 : op.toByte ≠ 13) (h14 : op.toByte ≠ 14)
    (hins : c₁.instructions = c.instructions ++ D)
    (hwalk : jumpsOkWalk D c₁.instructions.length = true) :
    (c₁.emit op []).2.instructions = c.instructions ++ (D ++ [op.toByte])
    ∧ jumpsOkWalk (D ++ [op.toByte]) (c₁.emit op []).2.instructions.length = true := by
  have he : (c₁.emit op []).2.instructions = c₁.instructions ++ [op.toByte] := by
    show c₁.instructions ++ MakeInstruction op [] = _
    rw [make_zeroary op hop]
  constructor
  · rw [he, hins]; simp
  · rw [he]
    refine walk_append D _ (walk_monotone D _ hwalk _ (by simp)) _
      (walk_zeroary op hop h13 h14 _)

mutual

theorem exprWalkOk : ∀ (e : Expr) (c c' : Compiler),
    compileExpr e c = .ok c' →
    ∃ Δ, c'.instructions = c.instructions ++ Δ
      ∧ jumpsOkWalk Δ c'.instructions.length = true
  | .identE name, c, c', h => by
    simp only [compileExpr] at h
    cases hres : c.symbolTable.resolve name with
    | none => rw [hres] at h; simp at h
    | some symbol =>
      rw [hres] at h
      simp only [Except.ok.injEq] at h
      subst h
      refine ⟨MakeInstruction .opGetGlobal [symbol.index], rfl, ?_⟩
      rw [make_u16 .opGetGlobal rfl]
      exact walk_u16_nonjump .opGetGlobal rfl (by decide) (by decide) _ _
  | .intLit n, c, c', h => by
    simp only [compileExpr, Except.ok.injEq] at h
    subst h
    refine ⟨MakeInstruction .opConstant [(c.addConstant (.intV n)).1], rfl, ?_⟩
    rw [make_u16 .opConstant rfl]
    exact walk_u16_nonjump .opConstant rfl (by decide) (by decide) _ _
  | .boolLit b, c, c', h => by
    cases b with
    | false =>
      simp only [compileExpr] at h
      rw [if_pos (by decide), Except.ok.injEq] at h
      subst h
      exact ⟨[7], rfl, walk_zeroary .opFalse rfl (by decide) (by decide) _⟩
    | true =>
      simp only [compileExpr] at h
      rw [if_neg (by decide), Except.ok.injEq] at h
      subst h
      exact ⟨[6], rfl, walk_zeroary .opTrue rfl (by decide) (by decide) _⟩
  | .strLit s, c, c', h => by
    simp only [compileExpr, Except.ok.injEq] at h
    subst h
    exact ⟨[], by simp, by rw [jumpsOkWalk]⟩
  | .arrayLit es, c, c', h => by
    simp only [compileExpr, Except.ok.injEq] at h
    subst h
    exact ⟨[], by simp, by rw [jumpsOkWalk]⟩
  | .hashLit ps, c, c', h => by
    simp only [compileExpr, Except.ok.injEq] at h
    subst h
    exact ⟨[], by simp, by rw [jumpsOkWalk]⟩
  | .indexE l i, c, c', h => by
    simp only [compileExpr, Except.ok.injEq] at h
    subst h
    exact ⟨[], by simp, by rw [jumpsOkWalk]⟩
  | .callE f args, c, c', h => by
    simp only [compileExpr, Except.ok.injEq] at h
    subst h
    exact ⟨[], by simp, by rw [jumpsOkWalk]⟩
  | .funcLit ps b, c, c', h => by
    simp only [compileExpr, Except.ok.injEq] at h
    subst h
    exact ⟨[], by simp, by rw [jumpsOkWalk]⟩
  | .prefixE op r, c, c', h => by
    simp only [compileExpr] at h
    cases hr : compileExpr r c with
    | error m => rw [hr] at h; simp at h
    | ok c₁ =>
      rw [hr] at h
      simp only [except_bind_eq, except_bind_ok] at h
      obtain ⟨D, hins, hwalk⟩ := exprWalkOk r c c₁ hr
      by_cases hminus : op = "-"
      · rw [if_pos hminus, Except.ok.injEq] at h
        subst h
        have hstep := emit_zeroary_step c c₁ D .opMinus rfl (by decide) (by decide)
          hins hwalk
        exact ⟨D ++ [11], hstep.1, hstep.2⟩
      · rw [if_neg hminus] at h
        by_cases hbang : op = "!"
        · rw [if_pos hbang, Except.ok.injEq] at h
          subst h
          have hstep := emit_zeroary_step c c₁ D .opBang rfl (by decide) (by decide)
            hins hwalk
          exact ⟨D ++ [12], hstep.1, hstep.2⟩
        · rw [if_neg hbang] at h
          simp at h
  | .infixE op l r, c, c', h => by
    simp only [compileExpr] at h
    by_cases hlt : op = "<"
    · rw [if_pos hlt] at h
      cases hr : compileExpr r c with
      | error m => rw [hr] at h; simp at h
      | ok c₁ =>
        rw [hr] at h
        simp only [except_bind_eq, except_bind_ok] at h
        cases hl : compileExpr l c₁ with
        | error m => rw [hl] at h; simp at h
        | ok c₂ =>
          rw [hl] at h
          simp only [except_bind_eq, except_bind_ok, Except.ok.injEq] at h
          subst h
          obtain ⟨D1, hi1, hw1⟩ := exprWalkOk r c c₁ hr
          obtain ⟨D2, hi2, hw2⟩ := exprWalkOk l c₁ c₂ hl
          have hins12 : c₂.instructions = c.instructions ++ (D1 ++ D2) := by
            rw [hi2, hi1]; simp
          have hw12 : jumpsOkWalk (D1 ++ D2) c₂.instructions.length = true := by
            refine walk_append D1 _ (walk_monotone D1 _ hw1 _ (by rw [hi2]; simp)) _ hw2
          have hstep := emit_zeroary_step c c₂ (D1 ++ D2) .opGreaterThan rfl
            (by decide) (by decide) hins12 hw12
          exact ⟨(D1 ++ D2) ++ [10], hstep.1, hstep.2⟩
    · rw [if_neg hlt] at h
      cases hl : compileExpr l c with
      | error m => rw [hl] at h; simp at h
      | ok c₁ =>
        rw [hl] at h
        simp only [except_bind_eq, except_bind_ok] at h
        cases hr : compileExpr r c₁ with
        | error m => rw [hr] at h; simp at h
        | ok c₂ =>
          rw [hr] at h
          simp only [except_bind_eq, except_bind_ok] at h
          obtain ⟨D1, hi1, hw1⟩ := exprWalkOk l c c₁ hl
          obtain ⟨D2, hi2, hw2⟩ := exprWalkOk r c₁ c₂ hr
          have hins12 : c₂.instructions = c.instructions ++ (D1 ++ D2) := by
            rw [hi2, hi1]; simp
          have hw12 : jumpsOkWalk (D1 ++ D2) c₂.instructions.length = true := by
            refine walk_append D1 _ (walk_monotone D1 _ hw1 _ (by rw [hi2]; simp)) _ hw2
          unfold emitInfixOp at h
          split_ifs at h with h1 h2 h3 h4 h5 h6 h7
          · simp only [Except.ok.injEq] at h; subst h
            have hstep := emit_zeroary_step c c₂ (D1 ++ D2) .opAdd rfl
              (by decide) (by decide) hins12 hw12
            exact ⟨(D1 ++ D2) ++ [2], hstep.1, hstep.2⟩
          · simp only [Except.ok.injEq] at h; subst h
            have hstep := emit_zeroary_step c c₂ (D1 ++ D2) .opSub rfl
              (by decide) (by decide) hins12 hw12
            exact ⟨(D1 ++ D2) ++ [3], hstep.1, hstep.2⟩
          · simp only [Except.ok.injEq] at h; subst h
            have hstep := emit_zeroary_step c c₂ (D1 ++ D2) .opMul rfl
              (by decide) (by decide) hins12 hw12
            exact ⟨(D1 ++ D2) ++ [4], hstep.1, hstep.2⟩
          · simp only [Except.ok.injEq] at h; subst h
            have hstep := emit_zeroary_step c c₂ (D1 ++ D2) .opDiv rfl
              (by decide) (by decide) hins12 hw12
            exact ⟨(D1 ++ D2) ++ [5], hstep.1, hstep.2⟩
          · simp only [Except.ok.injEq] at h; subst h
            have hstep := emit_zeroary_step c c₂ (D1 ++ D2) .opNotEqual rfl
              (by decide) (by decide) hins12 hw12
            exact ⟨(D1 ++ D2) ++ [9], hstep.1, hstep.2⟩
          · simp only [Except.ok.injEq] at h; subst h
            have hstep := emit_zeroary_step c c₂ (D1 ++ D2) .opEqual rfl
              (by decide) (by decide) hins12 hw12
            exact ⟨(D1 ++ D2) ++ [8], hstep.1, hstep.2⟩
          · simp only [Except.ok.injEq] at h; subst h
            have hstep := emit_zeroary_step c c₂ (D1 ++ D2) .opGreaterThan rfl
              (by decide) (by decide) hins12 hw12
            exact ⟨(D1 ++ D2) ++ [10], hstep.1, hstep.2⟩
  | .ifE cond conseq alt, c, c', h => by
    simp only [compileExpr, except_bind_eq] at h
    cases hc : compileExpr cond c with
    | error m => rw [hc] at h; simp at h
    | ok c₁ =>
      rw [hc] at h
      simp only [except_bind_ok] at h
      obtain ⟨Dc, hins₁, hDcwalk⟩ := exprWalkOk cond c c₁ hc
      set c₂ : Compiler := (c₁.emit Opcode.opJumpNotTruthy [1000]).2 with hc₂
      have hins₂ : c₂.instructions = c₁.instructions ++ [13, 3, 232] := rfl
      cases hcb : compileBlock conseq c₂ with
      | error m => rw [hcb] at h; simp at h
      | ok c₃ =>
        rw [hcb] at h
        simp only [except_bind_ok] at h
        obtain ⟨Δb, hΔins, hΔwalk, hΔnil, hΔpop⟩ := blockWalkOk conseq c₂ c₃ hcb
        have key : ∃ E, (if c₃.lastInstructionIsPop then c₃.removeLastPop
              else c₃).instructions = c₂.instructions ++ E
            ∧ jumpsOkWalk E (if c₃.lastInstructionIsPop then c₃.removeLastPop
              else c₃).instructions.length = true := by
          by_cases hpop : c₃.lastInstructionIsPop
          · rw [if_pos hpop]
            have hΔne : Δb ≠ [] := by
              intro hnil
              have hc32 : c₃ = c₂ := hΔnil hnil
              rw [hc32] at hpop
              have hlast : c₂.lastInstruction.opCode = Opcode.opJumpNotTruthy := rfl
              rw [Compiler.lastInstructionIsPop, hlast] at hpop
              simp at hpop
            have hpopeq : c₃.lastInstruction.opCode = Opcode.opPop := by
              simpa [Compiler.lastInstructionIsPop] using hpop
            obtain ⟨hglast, hposn, hwd⟩ := hΔpop hΔne hpopeq
            refine ⟨Δb.dropLast, ?_, ?_⟩
            · show c₃.instructions.take c₃.lastInstruction.position = _
              rw [hposn, hΔins, take_append_add, List.dropLast_eq_take]
            · have hlen4 : (c₃.removeLastPop).instructions.length
                  = c₂.instructions.length + (Δb.length - 1) := by
                show (c₃.instructions.take c₃.lastInstruction.position).length = _
                rw [hposn, hΔins, take_append_add]
                simp only [List.length_append, List.length_take]
                have : 1 ≤ Δb.length := List.length_pos.mpr hΔne
                omega
              rw [hlen4]
              exact hwd
          · rw [if_neg hpop]
            exact ⟨Δb, hΔins, hΔwalk⟩
        obtain ⟨E, hEins, hEwalk⟩ := key
        set c₄ : Compiler := (if c₃.lastInstructionIsPop then c₃.removeLastPop
          else c₃) with hc₄
        have hshape : c₄.instructions = c₁.instructions ++ 13 :: 3 :: 232 :: E := by
          rw [hEins, hins₂]; simp
        obtain ⟨R, hR, hRwalk⟩ := handleJumpWalkOk alt
          (c₁.emit Opcode.opJumpNotTruthy [1000]).1 c₄ c' h
          c₁.instructions E 3 232 hshape rfl hEwalk
        refine ⟨Dc ++ R, ?_, ?_⟩
        · rw [hR, hins₁]; simp
        · have hlen : c₁.instructions.length ≤ c'.instructions.length := by
            rw [hR]; simp
          exact walk_append Dc _ (walk_monotone Dc _ hDcwalk _ hlen) R hRwalk

theorem handleJumpWalkOk : ∀ (alt : Option Block) (posJNT : Nat) (c c' : Compiler),
    handleJump alt posJNT c = .ok c' →
    ∀ (pre Q : List Nat) (a b : Nat),
    c.instructions = pre ++ 13 :: a :: b :: Q →
    posJNT = pre.length →
    jumpsOkWalk Q c.instructions.length = true →
    ∃ R, c'.instructions = pre ++ R
      ∧ jumpsOkWalk R c'.instructions.length = true
  | none, posJNT, c, c', h => by
    intro pre Q a b hins hpos hQ
    subst hpos
    simp only [handleJump, except_bind_eq, except_bind_ok, Except.ok.injEq] at h
    set c₁ : Compiler := (c.emit Opcode.opJump [1000]).2 with hc₁
    have hins₁ : c₁.instructions = pre ++ 13 :: a :: b :: (Q ++ [14, 3, 232]) := by
      show c.instructions ++ [14, 3, 232] = _
      rw [hins]; simp
    set T₁ := c₁.instructions.length with hT₁
    obtain ⟨hP1, _, hL1, _, _⟩ := changeOperand_jump c₁ pre (Q ++ [14, 3, 232]) 13 a b
      T₁ (Or.inl rfl) hins₁
    set c₂ : Compiler := c₁.changeOperand pre.length T₁ with hc₂
    set c₃ : Compiler := (c₂.emit Opcode.opNull []).2 with hc₃
    have hins₃ : c₃.instructions = c₂.instructions ++ [15] := by
      show c₂.instructions ++ MakeInstruction .opNull [] = _
      rw [make_zeroary .opNull rfl]
      rfl
    obtain ⟨hP2, _, _, _, _⟩ := changeOperand_jump c₃
      (pre ++ 13 :: (T₁ % 65536 / 256) :: (T₁ % 256) :: Q) [15] 14 3 232
      c₃.instructions.length (Or.inr rfl) (by rw [hins₃, hP1]; simp)
    have hr1 : (c.emit Opcode.opJump [1000]).1 = c.instructions.length := rfl
    have hpos2 : c.instructions.length
        = (pre ++ 13 :: (T₁ % 65536 / 256) :: (T₁ % 256) :: Q).length := by
      rw [hins]; simp
    rw [hr1, hpos2] at h
    subst h
    have hT₁val : T₁ = pre.length + Q.length + 6 := by
      rw [hT₁, hins₁]
      simp only [List.length_append, List.length_cons, List.length_nil]
      omega
    have hlenfin : (c₃.changeOperand
          (pre ++ 13 :: (T₁ % 65536 / 256) :: (T₁ % 256) :: Q).length
          c₃.instructions.length).instructions.length = c₃.instructions.length := by
      rw [hP2, hins₃, hP1]
      simp only [List.length_append, List.length_cons, List.length_nil]
      omega
    have hc₃len : c₃.instructions.length = T₁ + 1 := by
      rw [hins₃, hP1, hT₁val]
      simp only [List.length_append, List.length_cons, List.length_nil]
      omega
    have hclen : c.instructions.length = pre.length + Q.length + 3 := by
      rw [hins]
      simp only [List.length_append, List.length_cons]
      omega
    refine ⟨13 :: (T₁ % 65536 / 256) :: (T₁ % 256)
        :: (Q ++ 14 :: (c₃.instructions.length % 65536 / 256)
          :: (c₃.instructions.length % 256) :: [15]), ?_, ?_⟩
    · rw [hP2]; simp
    · rw [hlenfin]
      have h13 : jumpsOkWalk [13, T₁ % 65536 / 256, T₁ % 256]
          c₃.instructions.length = true :=
        walk_one_jump_enc 13 T₁ _ (Or.inl rfl) (by omega)
      have hQ' : jumpsOkWalk Q c₃.instructions.length = true :=
        walk_monotone Q _ hQ _ (by omega)
      have h14 : jumpsOkWalk [14, c₃.instructions.length % 65536 / 256,
          c₃.instructions.length % 256] c₃.instructions.length = true :=
        walk_one_jump_enc 14 c₃.instructions.length _ (Or.inr rfl) le_rfl
      have h15 : jumpsOkWalk [15] c₃.instructions.length = true :=
        walk_zeroary .opNull rfl (by decide) (by decide) _
      have hall := walk_append _ _ h13 _
        (walk_append Q _ hQ' _ (walk_append _ _ h14 _ h15))
      simpa using hall
  | some blk, posJNT, c, c', h => by
    intro pre Q a b hins hpos hQ
    subst hpos
    simp only [handleJump, except_bind_eq] at h
    set c₁ : Compiler := (c.emit Opcode.opJump [1000]).2 with hc₁
    have hins₁ : c₁.instructions = pre ++ 13 :: a :: b :: (Q ++ [14, 3, 232]) := by
      show c.instructions ++ [14, 3, 232] = _
      rw [hins]; simp
    set T₁ := c₁.instructions.length with hT₁
    obtain ⟨hP1, _, hL1, _, _⟩ := changeOperand_jump c₁ pre (Q ++ [14, 3, 232]) 13 a b
      T₁ (Or.inl rfl) hins₁
    set c₂ : Compiler := c₁.changeOperand pre.length T₁ with hc₂
    cases hb : compileBlock blk c₂ with
    | error m => rw [hb] at h; simp at h
    | ok c₄ =>
      rw [hb] at h
      simp only [except_bind_ok, Except.ok.injEq] at h
      obtain ⟨Δ, hΔins, hΔwalk, hΔnil, hΔpop⟩ := blockWalkOk blk c₂ c₄ hb
      have key : ∃ E, (if c₄.lastInstructionIsPop then c₄.removeLastPop
            else c₄).instructions = c₂.instructions ++ E
          ∧ jumpsOkWalk E (if c₄.lastInstructionIsPop then c₄.removeLastPop
            else c₄).instructions.length = true := by
        by_cases hpop : c₄.lastInstructionIsPop
        · rw [if_pos hpop]
          have hΔne : Δ ≠ [] := by
            intro hnil
            have hc42 : c₄ = c₂ := hΔnil hnil
            rw [hc42] at hpop
            have hlast : c₂.lastInstruction.opCode = Opcode.opJump := by
              rw [hL1]; rfl
            rw [Compiler.lastInstructionIsPop, hlast] at hpop
            simp at hpop
          have hpopeq : c₄.lastInstruction.opCode = Opcode.opPop := by
            simpa [Compiler.lastInstructionIsPop] using hpop
          obtain ⟨hglast, hposn, hwd⟩ := hΔpop hΔne hpopeq
          refine ⟨Δ.dropLast, ?_, ?_⟩
          · show c₄.instructions.take c₄.lastInstruction.position = _
            rw [hposn, hΔins, take_append_add, List.dropLast_eq_take]
          · have hlen5 : (c₄.removeLastPop).instructions.length
                = c₂.instructions.length + (Δ.length - 1) := by
              show (c₄.instructions.take c₄.lastInstruction.position).length = _
              rw [hposn, hΔins, take_append_add]
              simp only [List.length_append, List.length_take]
              have : 1 ≤ Δ.length := List.length_pos.mpr hΔne
              omega
            rw [hlen5]
            exact hwd
        · rw [if_neg hpop]
          exact ⟨Δ, hΔins, hΔwalk⟩
      obtain ⟨E, hEins, hEwalk⟩ := key
      set c₅ : Compiler := (if c₄.lastInstructionIsPop then c₄.removeLastPop
        else c₄) with hc₅
      obtain ⟨hP2, _, _, _, _⟩ := changeOperand_jump c₅
        (pre ++ 13 :: (T₁ % 65536 / 256) :: (T₁ % 256) :: Q) E 14 3 232
        c₅.instructions.length (Or.inr rfl) (by rw [hEins, hP1]; simp)
      have hr1 : (c.emit Opcode.opJump [1000]).1 = c.instructions.length := rfl
      have hpos2 : c.instructions.length
          = (pre ++ 13 :: (T₁ % 65536 / 256) :: (T₁ % 256) :: Q).length := by
        rw [hins]; simp
      rw [hr1, hpos2] at h
      subst h
      have hT₁val : T₁ = pre.length + Q.length + 6 := by
        rw [hT₁, hins₁]
        simp only [List.length_append, List.length_cons, List.length_nil]
        omega
      have hc₅len : c₅.instructions.length = T₁ + E.length := by
        rw [hEins, hP1, hT₁val]
        simp only [List.length_append, List.length_cons, List.length_nil]
        omega
      have hlenfin : (c₅.changeOperand
            (pre ++ 13 :: (T₁ % 65536 / 256) :: (T₁ % 256) :: Q).length
            c₅.instructions.length).instructions.length
          = c₅.instructions.length := by
        rw [hP2, hEins, hP1]
        simp only [List.length_append, List.length_cons, List.length_nil]
        omega
      have hclen : c.instructions.length = pre.length + Q.length + 3 := by
        rw [hins]
        simp only [List.length_append, List.length_cons]
        omega
      refine ⟨13 :: (T₁ % 65536 / 256) :: (T₁ % 256)
          :: (Q ++ 14 :: (c₅.instructions.length % 65536 / 256)
            :: (c₅.instructions.length % 256) :: E), ?_, ?_⟩
      · rw [hP2]; simp
      · rw [hlenfin]
        have h13 : jumpsOkWalk [13, T₁ % 65536 / 256, T₁ % 256]
            c₅.instructions.length = true :=
          walk_one_jump_enc 13 T₁ _ (Or.inl rfl) (by omega)
        have hQ' : jumpsOkWalk Q c₅.instructions.length = true :=
          walk_monotone Q _ hQ _ (by omega)
        have h14 : jumpsOkWalk [14, c₅.instructions.length % 65536 / 256,
            c₅.instructions.length % 256] c₅.instructions.length = true :=
          walk_one_jump_enc 14 c₅.instructions.length _ (Or.inr rfl) le_rfl
        have hall := walk_append _ _ h13 _
          (walk_append Q _ hQ' _ (walk_append _ _ h14 _ hEwalk))
        simpa using hall

theorem stmtWalkOk : ∀ (s : Stmt) (c c' : Compiler),
    compileStmt s c = .ok c' → BlockOut c c'
  | .letS name value, c, c', h => by
    simp only [compileStmt] at h
    cases hv : compileExpr value c with
    | error m => rw [hv] at h; simp at h
    | ok c₁ =>
      rw [hv] at h
      simp only [except_bind_eq, except_bind_ok, Except.ok.injEq] at h
      subst h
      obtain ⟨D, hins, hwalk⟩ := exprWalkOk value c c₁ hv
      set c₂ : Compiler := { c₁ with symbolTable := (c₁.symbolTable.define name).2 }
        with hc₂
      have hins₂ : c₂.instructions = c.instructions ++ D := hins
      have hwalk₂ : jumpsOkWalk D c₂.instructions.length = true := hwalk
      refine ⟨D ++ MakeInstruction .opSetGlobal [(c₁.symbolTable.define name).1.index],
        ?_, ?_, ?_, ?_⟩
      · show c₂.instructions ++ _ = _
        rw [hins₂]; simp
      · show jumpsOkWalk _ (c₂.instructions ++ _).length = true
        rw [make_u16 .opSetGlobal rfl]
        refine walk_append D _ (walk_monotone D _ hwalk₂ _ (by simp)) _ ?_
        exact walk_u16_nonjump .opSetGlobal rfl (by decide) (by decide) _ _
      · intro hnil
        rw [make_u16 .opSetGlobal rfl] at hnil
        simp at hnil
      · intro _ hpop
        exfalso
        have : Opcode.opSetGlobal = Opcode.opPop := hpop
        exact absurd this (by decide)
  | .returnS e, c, c', h => by
    simp only [compileStmt, Except.ok.injEq] at h
    subst h
    exact ⟨[], by simp, by rw [jumpsOkWalk], fun _ => rfl, fun hne => absurd rfl hne⟩
  | .exprS e, c, c', h => by
    simp only [compileStmt] at h
    cases hv : compileExpr e c with
    | error m => rw [hv] at h; simp at h
    | ok c₁ =>
      rw [hv] at h
      simp only [except_bind_eq, except_bind_ok, Except.ok.injEq] at h
      subst h
      obtain ⟨D, hins, hwalk⟩ := exprWalkOk e c c₁ hv
      refine ⟨D ++ [1], ?_, ?_, ?_, ?_⟩
      · show c₁.instructions ++ MakeInstruction .opPop [] = _
        rw [make_zeroary .opPop rfl, hins]
        simp [Opcode.toByte]
      · show jumpsOkWalk _ (c₁.instructions ++ MakeInstruction .opPop []).length = true
        rw [make_zeroary .opPop rfl]
        refine walk_append D _ (walk_monotone D _ hwalk _ (by simp)) _ ?_
        exact walk_zeroary .opPop rfl (by decide) (by decide) _
      · intro hnil; simp at hnil
      · intro _ _
        refine ⟨by simp, ?_, ?_⟩
        · show c₁.instructions.length = _
          rw [hins]
          simp only [List.length_append, List.length_cons, List.length_nil]
          omega
        · rw [List.dropLast_concat]
          have harith : c.instructions.length + ((D ++ [1]).length - 1)
              = c₁.instructions.length := by
            rw [hins]; simp
          rw [harith]
          exact hwalk
  | .blockS b, c, c', h => by
    exact blockWalkOk b c c' h


theorem blockWalkOk : ∀ (b : Block) (c c' : Compiler),
    compileBlock b c = .ok c' → BlockOut c c'
  | .nil, c, c', h => by
    simp only [compileBlock, Except.ok.injEq] at h
    subst h
    exact ⟨[], by simp, by rw [jumpsOkWalk], fun _ => rfl, fun hne => absurd rfl hne⟩
  | .cons s rest, c, c', h => by
    simp only [compileBlock] at h
    cases hs : compileStmt s c with
    | error m => rw [hs] at h; simp at h
    | ok c₁ =>
      rw [hs] at h
      simp only [except_bind_eq, except_bind_ok] at h
      exact blockOut_chain c c₁ c' (stmtWalkOk s c c₁ hs) (blockWalkOk rest c₁ c' h)

end

/-- **C5.** Jump-target invariant: for every program whose compilation
succeeds, a disassembly walk over the final instruction stream finds
every `OpJumpNotTruthy` (byte 13) and `OpJump` (byte 14) operand
decoding to a target at most the stream's length (a `Nat`, hence in
`[0, len]`); and back-patching a jump via `changeOperand` preserves
both the instruction stream's length and the opcode byte at the
patched position. -/
theorem C5_jump_targets :
    (∀ (root : Block) (bc : ByteCode), compileProgram root = .ok bc →
      jumpsOkWalk bc.instructions bc.instructions.length = true)
  ∧ (∀ (c : Compiler) (P S : List Nat) (jb a₁ a₂ T : Nat),
      jb = 13 ∨ jb = 14 → c.instructions = P ++ jb :: a₁ :: a₂ :: S →
      (c.changeOperand P.length T).instructions.length = c.instructions.length
      ∧ (c.changeOperand P.length T).instructions.getD P.length 0 = jb) := by
  constructor
  · intro root bc h
    unfold compileProgram at h
    cases hb : compileBlock root NewCompiler with
    | error m => rw [hb] at h; simp [Except.map] at h
    | ok c' =>
      rw [hb] at h
      simp only [Except.map, Except.ok.injEq] at h
      subst h
      obtain ⟨Δ, hins, hwalk, _, _⟩ := blockWalkOk root NewCompiler c' hb
      have hnil : NewCompiler.instructions = [] := rfl
      rw [hnil, List.nil_append] at hins
      show jumpsOkWalk c'.instructions c'.instructions.length = true
      rw [hins] at hwalk ⊢
      exact hwalk
  · intro cc P S jb a₁ a₂ T hjb hins
    obtain ⟨h1, _, _, _, _⟩ := changeOperand_jump cc P S jb a₁ a₂ T hjb hins
    constructor
    · rw [h1, hins]; simp
    · rw [h1, getD_append_len, List.getD_cons_zero]

/-- Witness for **C5**: the compiled conditional `if (true) { 10 } else
{ 20 }` passes the jump walk, and patching the concrete jump at
position 3 of `[0,0,0,13,0,10]` keeps the length 6 and the byte 13. -/
theorem C5_jump_targets_witness :
    (compileProgram progIfTrue
        = .ok ⟨[6, 13, 0, 10, 0, 0, 0, 14, 0, 13, 0, 0, 1, 1],
            [Obj.intV 10, Obj.intV 20]⟩
      ∧ jumpsOkWalk [6, 13, 0, 10, 0, 0, 0, 14, 0, 13, 0, 0, 1, 1] 14 = true)
  ∧ (({ NewCompiler with instructions := [0, 0, 0, 13, 0, 10] }
        : Compiler).changeOperand 3 5).instructions.length = 6
  ∧ (({ NewCompiler with instructions := [0, 0, 0, 13, 0, 10] }
        : Compiler).changeOperand 3 5).instructions.getD 3 0 = 13 := by
  refine ⟨⟨by rfl, ?_⟩, ?_, ?_⟩
  · exact C5_jump_targets.1 progIfTrue
      ⟨[6, 13, 0, 10, 0, 0, 0, 14, 0, 13, 0, 0, 1, 1],
        [Obj.intV 10, Obj.intV 20]⟩ (by rfl)
  · exact ((C5_jump_targets.2 _ [0, 0, 0] [] 13 0 10 5
      (Or.inl rfl) rfl).1).trans (by rfl)
  · exact (C5_jump_targets.2 _ [0, 0, 0] [] 13 0 10 5
      (Or.inl rfl) rfl).2



/-! ### C3: list access lemmas for the straight-line simulation -/

theorem getD_append_at {α : Type} (P l : List α) (j : Nat) (d : α) :
    (P ++ l).getD (P.length + j) d = l.getD j d := by
  induction P with
  | nil => simp
  | cons a t ih => simpa [Nat.succ_add] using ih

theorem getD_append_lt {α : Type} (P l : List α) (i : Nat) (d : α)
    (h : i < P.length) : (P ++ l).getD i d = P.getD i d := by
  induction P generalizing i with
  | nil => simp at h
  | cons a t ih =>
    cases i with
    | zero => rfl
    | succ i' => simpa using ih i' (by simpa using h)

theorem take_set_of_le {α : Type} (l : List α) (n m : Nat) (a : α) (h : n ≤ m) :
    (l.set m a).take n = l.take n := by
  induction l generalizing n m with
  | nil => simp
  | cons x t ih =>
    cases m with
    | zero =>
      cases n with
      | zero => simp
      | succ n' => omega
    | succ m' =>
      cases n with
      | zero => simp
      | succ n' => simpa using ih n' m' (by omega)

theorem getD_set_self {α : Type} (l : List α) (n : Nat) (a d : α)
    (h : n < l.length) : (l.set n a).getD n d = a := by
  induction l generalizing n with
  | nil => simp at h
  | cons x t ih =>
    cases n with
    | zero => rfl
    | succ n' => simpa using ih n' (by simpa using h)

theorem getD_take_lt {α : Type} (l : List α) (n m : Nat) (d : α) (h : n < m) :
    (l.take m).getD n d = l.getD n d := by
  induction l generalizing n m with
  | nil => simp
  | cons x t ih =>
    cases m with
    | zero => omega
    | succ m' =>
      cases n with
      | zero => rfl
      | succ n' => simpa using ih n' m' (by omega)

theorem getD_of_take_eq {α : Type} (l l' : List α) (n : Nat) (d : α)
    (h : l.take (n + 1) = l'.take (n + 1)) : l.getD n d = l'.getD n d := by
  rw [← getD_take_lt l n (n + 1) d (by omega),
    ← getD_take_lt l' n (n + 1) d (by omega), h]

theorem length_set_eq {α : Type} (l : List α) (n : Nat) (a : α) :
    (l.set n a).length = l.length := by simp

/-! ### C3: running the VM one step at a time -/

theorem runVM_step (vm vm₂ : VM) (ip ip₂ : Nat)
    (hlt : ip < vm.instructions.length)
    (hstep : stepVM vm ip = .ok (vm₂, ip₂)) :
    ∀ f0, runVM (1 + f0) vm ip = runVM f0 vm₂ ip₂ := by
  intro f0
  rw [Nat.add_comm, runVM, if_pos hlt, hstep]

theorem runVM_done (vm : VM) (ip : Nat) (h : ¬ ip < vm.instructions.length) :
    ∀ f0, runVM (f0 + 1) vm ip = .ok vm := by
  intro f0
  rw [runVM, if_neg h]


/-! ### C3: evaluating one dispatch step per opcode -/

theorem boolNative_eq (x : Bool) : boolNativeToBoolObject x = .boolV x := by
  cases x <;> rfl

theorem stepVM_true (vm : VM) (ip : Nat)
    (hb : vm.instructions.getD ip 0 = 6) (hsp : vm.sp < StackSize) :
    stepVM vm ip = .ok ({ vm with stack := vm.stack.set vm.sp (.boolV true), sp := vm.sp + 1 }, ip + 1) := by
  have hb' : vm.instructions[ip]?.getD 0 = 6 := by simpa using hb
  have hpush : vm.push (.boolV true) = .ok { vm with stack := vm.stack.set vm.sp (.boolV true), sp := vm.sp + 1 } := by
    unfold VM.push
    rw [if_neg (by omega)]
  simp [stepVM, hb', Opcode.toByte, hpush]

theorem stepVM_false (vm : VM) (ip : Nat)
    (hb : vm.instructions.getD ip 0 = 7) (hsp : vm.sp < StackSize) :
    stepVM vm ip = .ok ({ vm with stack := vm.stack.set vm.sp (.boolV false), sp := vm.sp + 1 }, ip + 1) := by
  have hb' : vm.instructions[ip]?.getD 0 = 7 := by simpa using hb
  have hpush : vm.push (.boolV false) = .ok { vm with stack := vm.stack.set vm.sp (.boolV false), sp := vm.sp + 1 } := by
    unfold VM.push
    rw [if_neg (by omega)]
  simp [stepVM, hb', Opcode.toByte, hpush]

theorem stepVM_pop' (vm : VM) (ip : Nat)
    (hb : vm.instructions.getD ip 0 = 1) (hsp0 : vm.sp ≠ 0)
    (hspU : vm.sp ≤ StackSize) :
    stepVM vm ip = .ok ({ vm with sp := vm.sp - 1 }, ip + 1) := by
  have hb' : vm.instructions[ip]?.getD 0 = 1 := by simpa using hb
  have hpop : vm.pop = .ok (vm.stack.getD (vm.sp - 1) .nilRef, { vm with sp := vm.sp - 1 }) := by
    unfold VM.pop
    rw [if_neg (by omega)]
  simp [stepVM, hb', Opcode.toByte, hpop]

theorem stepVM_const (vm : VM) (ip h l : Nat)
    (hb : vm.instructions.getD ip 0 = 0)
    (hin : ip + 2 < vm.instructions.length)
    (hh : vm.instructions.getD (ip + 1) 0 = h)
    (hl : vm.instructions.getD (ip + 2) 0 = l)
    (hidx : 256 * h + l < vm.constants.length)
    (hsp : vm.sp < StackSize) :
    stepVM vm ip = .ok ({ vm with stack := vm.stack.set vm.sp (vm.constants.getD (256 * h + l) .nilRef), sp := vm.sp + 1 }, ip + 3) := by
  have hb' : vm.instructions[ip]?.getD 0 = 0 := by simpa using hb
  have hread : vm.readU16At (ip + 1) = .ok (256 * h + l) := by
    unfold VM.readU16At
    rw [if_pos (by omega), hh, hl]
  have hpush : ∀ ob : Obj, vm.push ob = .ok { vm with stack := vm.stack.set vm.sp ob, sp := vm.sp + 1 } := by
    intro ob
    unfold VM.push
    rw [if_neg (by omega)]
  simp [stepVM, hb', Opcode.toByte, hread, hidx, hpush]


theorem stepVM_bang (vm : VM) (ip : Nat) (w res : Obj)
    (hb : vm.instructions.getD ip 0 = 12) (hsp0 : vm.sp ≠ 0)
    (hspU : vm.sp ≤ StackSize)
    (hres : (match w with
      | Obj.boolV true => Obj.boolV false
      | Obj.boolV false => Obj.boolV true
      | Obj.nullV => Obj.boolV true
      | _ => Obj.boolV false) = res)
    (hw : vm.stack.getD (vm.sp - 1) .nilRef = w) :
    stepVM vm ip = .ok ({ vm with stack := vm.stack.set (vm.sp - 1) res, sp := vm.sp }, ip + 1) := by
  have hb' : vm.instructions[ip]?.getD 0 = 12 := by simpa using hb
  have hpop : vm.pop = .ok (vm.stack.getD (vm.sp - 1) .nilRef, { vm with sp := vm.sp - 1 }) := by
    unfold VM.pop
    rw [if_neg (by omega)]
  have hsp1 : vm.sp - 1 + 1 = vm.sp := by omega
  have hpush : ∀ ob : Obj, VM.push { vm with sp := vm.sp - 1 } ob = .ok { vm with stack := vm.stack.set (vm.sp - 1) ob, sp := vm.sp } := by
    intro ob
    unfold VM.push
    rw [if_neg (show ¬(vm.sp - 1 ≥ StackSize) by omega)]
    simp [hsp1]
  have hbang : vm.executeBangOperator = .ok { vm with stack := vm.stack.set (vm.sp - 1) res, sp := vm.sp } := by
    unfold VM.executeBangOperator
    simp only [Outcome.bind_eq, hpop, Outcome.ok_bind]
    rw [hw, ← hres]
    cases w with
    | boolV b => cases b <;> exact hpush _
    | _ => exact hpush _
  simp [stepVM, hb', Opcode.toByte, hbang]

theorem stepVM_minus (vm : VM) (ip : Nat) (n : Int)
    (hb : vm.instructions.getD ip 0 = 11) (hsp0 : vm.sp ≠ 0)
    (hspU : vm.sp ≤ StackSize)
    (hw : vm.stack.getD (vm.sp - 1) .nilRef = .intV n) :
    stepVM vm ip = .ok ({ vm with stack := vm.stack.set (vm.sp - 1) (.intV (w64 (-n))), sp := vm.sp }, ip + 1) := by
  have hb' : vm.instructions[ip]?.getD 0 = 11 := by simpa using hb
  have hpop : vm.pop = .ok (vm.stack.getD (vm.sp - 1) .nilRef, { vm with sp := vm.sp - 1 }) := by
    unfold VM.pop
    rw [if_neg (by omega)]
  have hsp1 : vm.sp - 1 + 1 = vm.sp := by omega
  have hpush : ∀ ob : Obj, VM.push { vm with sp := vm.sp - 1 } ob = .ok { vm with stack := vm.stack.set (vm.sp - 1) ob, sp := vm.sp } := by
    intro ob
    unfold VM.push
    rw [if_neg (show ¬(vm.sp - 1 ≥ StackSize) by omega)]
    simp [hsp1]
  have hminus : vm.executeMinusOperation = .ok { vm with stack := vm.stack.set (vm.sp - 1) (.intV (w64 (-n))), sp := vm.sp } := by
    unfold VM.executeMinusOperation
    simp only [Outcome.bind_eq, hpop, Outcome.ok_bind]
    rw [hw]
    simp [objType, hpush]
  simp [stepVM, hb', Opcode.toByte, hminus]

theorem stepVM_binInt (vm : VM) (ip : Nat) (b : Nat) (a v : Int) (res : Obj)
    (hb : vm.instructions.getD ip 0 = b)
    (hb4 : b = 2 ∨ b = 3 ∨ b = 4 ∨ b = 5)
    (hsp2 : 2 ≤ vm.sp) (hspU : vm.sp ≤ StackSize)
    (hleft : vm.stack.getD (vm.sp - 2) .nilRef = .intV a)
    (hright : vm.stack.getD (vm.sp - 1) .nilRef = .intV v)
    (hres : executeBinaryIntegerOperation b (.intV a) (.intV v) = .ok res) :
    stepVM vm ip = .ok ({ vm with stack := vm.stack.set (vm.sp - 2) res, sp := vm.sp - 1 }, ip + 1) := by
  have hb' : vm.instructions[ip]?.getD 0 = b := by simpa using hb
  have hpop1 : vm.pop = .ok (vm.stack.getD (vm.sp - 1) .nilRef, { vm with sp := vm.sp - 1 }) := by
    unfold VM.pop
    rw [if_neg (by omega)]
  have h21 : vm.sp - 1 - 1 = vm.sp - 2 := by omega
  have hpop2 : VM.pop { vm with sp := vm.sp - 1 } = .ok (vm.stack.getD (vm.sp - 2) .nilRef, { vm with sp := vm.sp - 2 }) := by
    unfold VM.pop
    rw [if_neg (show ¬(({ vm with sp := vm.sp - 1 } : VM).sp = 0 ∨ StackSize < ({ vm with sp := vm.sp - 1 } : VM).sp) by simp; omega)]
    simp [h21]
  have hsp1 : vm.sp - 2 + 1 = vm.sp - 1 := by omega
  have hpush : ∀ ob : Obj, VM.push { vm with sp := vm.sp - 2 } ob = .ok { vm with stack := vm.stack.set (vm.sp - 2) ob, sp := vm.sp - 1 } := by
    intro ob
    unfold VM.push
    rw [if_neg (show ¬(vm.sp - 2 ≥ StackSize) by omega)]
    simp [hsp1]
  have hexec : vm.executeBinaryOperation b = .ok { vm with stack := vm.stack.set (vm.sp - 2) res, sp := vm.sp - 1 } := by
    unfold VM.executeBinaryOperation
    simp only [Outcome.bind_eq, hpop1, Outcome.ok_bind]
    simp only [hpop2, Outcome.ok_bind]
    rw [hleft, hright]
    simp [objType, hres, hpush]
  rcases hb4 with rfl | rfl | rfl | rfl <;> simp [stepVM, hb', Opcode.toByte, hexec]

theorem stepVM_cmpInt (vm : VM) (ip : Nat) (b : Nat) (a v : Int) (res : Obj)
    (hb : vm.instructions.getD ip 0 = b)
    (hb3 : b = 8 ∨ b = 9 ∨ b = 10)
    (hsp2 : 2 ≤ vm.sp) (hspU : vm.sp ≤ StackSize)
    (hleft : vm.stack.getD (vm.sp - 2) .nilRef = .intV a)
    (hright : vm.stack.getD (vm.sp - 1) .nilRef = .intV v)
    (hres : executeIntegerComparison b (.intV a) (.intV v) = .ok res) :
    stepVM vm ip = .ok ({ vm with stack := vm.stack.set (vm.sp - 2) res, sp := vm.sp - 1 }, ip + 1) := by
  have hb' : vm.instructions[ip]?.getD 0 = b := by simpa using hb
  have hpop1 : vm.pop = .ok (vm.stack.getD (vm.sp - 1) .nilRef, { vm with sp := vm.sp - 1 }) := by
    unfold VM.pop
    rw [if_neg (by omega)]
  have h21 : vm.sp - 1 - 1 = vm.sp - 2 := by omega
  have hpop2 : VM.pop { vm with sp := vm.sp - 1 } = .ok (vm.stack.getD (vm.sp - 2) .nilRef, { vm with sp := vm.sp - 2 }) := by
    unfold VM.pop
    rw [if_neg (show ¬(({ vm with sp := vm.sp - 1 } : VM).sp = 0 ∨ StackSize < ({ vm with sp := vm.sp - 1 } : VM).sp) by simp; omega)]
    simp [h21]
  have hsp1 : vm.sp - 2 + 1 = vm.sp - 1 := by omega
  have hpush : ∀ ob : Obj, VM.push { vm with sp := vm.sp - 2 } ob = .ok { vm with stack := vm.stack.set (vm.sp - 2) ob, sp := vm.sp - 1 } := by
    intro ob
    unfold VM.push
    rw [if_neg (show ¬(vm.sp - 2 ≥ StackSize) by omega)]
    simp [hsp1]
  have hexec : vm.executeComparison b = .ok { vm with stack := vm.stack.set (vm.sp - 2) res, sp := vm.sp - 1 } := by
    unfold VM.executeComparison
    simp only [Outcome.bind_eq, hpop1, Outcome.ok_bind]
    simp only [hpop2, Outcome.ok_bind]
    rw [hleft, hright]
    simp [objType, hres, hpush]
  rcases hb3 with rfl | rfl | rfl <;> simp [stepVM, hb', Opcode.toByte, hexec]

theorem stepVM_cmpBool (vm : VM) (ip : Nat) (b : Nat) (p q : Bool)
    (hb : vm.instructions.getD ip 0 = b)
    (hb2 : b = 8 ∨ b = 9)
    (hsp2 : 2 ≤ vm.sp) (hspU : vm.sp ≤ StackSize)
    (hleft : vm.stack.getD (vm.sp - 2) .nilRef = .boolV p)
    (hright : vm.stack.getD (vm.sp - 1) .nilRef = .boolV q) :
    stepVM vm ip = .ok ({ vm with stack := vm.stack.set (vm.sp - 2) (.boolV (if b = 8 then q == p else !(q == p))), sp := vm.sp - 1 }, ip + 1) := by
  have hb' : vm.instructions[ip]?.getD 0 = b := by simpa using hb
  have hpop1 : vm.pop = .ok (vm.stack.getD (vm.sp - 1) .nilRef, { vm with sp := vm.sp - 1 }) := by
    unfold VM.pop
    rw [if_neg (by omega)]
  have h21 : vm.sp - 1 - 1 = vm.sp - 2 := by omega
  have hpop2 : VM.pop { vm with sp := vm.sp - 1 } = .ok (vm.stack.getD (vm.sp - 2) .nilRef, { vm with sp := vm.sp - 2 }) := by
    unfold VM.pop
    rw [if_neg (show ¬(({ vm with sp := vm.sp - 1 } : VM).sp = 0 ∨ StackSize < ({ vm with sp := vm.sp - 1 } : VM).sp) by simp; omega)]
    simp [h21]
  have hsp1 : vm.sp - 2 + 1 = vm.sp - 1 := by omega
  have hpush : ∀ ob : Obj, VM.push { vm with sp := vm.sp - 2 } ob = .ok { vm with stack := vm.stack.set (vm.sp - 2) ob, sp := vm.sp - 1 } := by
    intro ob
    unfold VM.push
    rw [if_neg (show ¬(vm.sp - 2 ≥ StackSize) by omega)]
    simp [hsp1]
  have hexec : vm.executeComparison b = .ok { vm with stack := vm.stack.set (vm.sp - 2) (.boolV (if b = 8 then q == p else !(q == p))), sp := vm.sp - 1 } := by
    unfold VM.executeComparison
    simp only [Outcome.bind_eq, hpop1, Outcome.ok_bind]
    simp only [hpop2, Outcome.ok_bind]
    rw [hleft, hright]
    rcases hb2 with rfl | rfl <;>
      simp [objType, VM.comparisonFallback, Opcode.toByte, sameRef, boolNative_eq, hpush]
  rcases hb2 with rfl | rfl <;> simp [stepVM, hb', Opcode.toByte, hexec]


/-! ### C3: combined operator steps and leaf segment runs -/

theorem enc2_decode (T : Nat) (h : T < 65536) :
    256 * (T % 65536 / 256) + T % 256 = T := by
  have h1 : T % 65536 = T := Nat.mod_eq_of_lt h
  rw [h1]
  have h2 := Nat.div_add_mod T 256
  omega

theorem exprSize_pos (e : Expr) : 1 ≤ exprSize e := by
  cases e <;> simp [exprSize]

theorem stepVM_unop (vm : VM) (ip b : Nat) (w res : Obj)
    (hb : vm.instructions.getD ip 0 = b) (hb2 : b = 11 ∨ b = 12)
    (hsp0 : vm.sp ≠ 0) (hspU : vm.sp ≤ StackSize)
    (hw : vm.stack.getD (vm.sp - 1) .nilRef = w)
    (hsem : unopSem b w = some res) :
    stepVM vm ip = .ok ({ vm with stack := vm.stack.set (vm.sp - 1) res, sp := vm.sp }, ip + 1) := by
  rcases hb2 with rfl | rfl
  · unfold unopSem at hsem
    rw [if_pos rfl] at hsem
    cases w with
    | intV n =>
      simp only [Option.some.injEq] at hsem
      subst hsem
      exact stepVM_minus vm ip n hb hsp0 hspU hw
    | nilRef => simp at hsem
    | boolV p => simp at hsem
    | nullV => simp at hsem
    | strV s => simp at hsem
    | arrayV l => simp at hsem
    | hashV l => simp at hsem
  · unfold unopSem at hsem
    rw [if_neg (by omega), if_pos rfl] at hsem
    simp only [Option.some.injEq] at hsem
    exact stepVM_bang vm ip w res hb hsp0 hspU hsem hw

theorem stepVM_binop (vm : VM) (ip b : Nat) (u₁ u₂ res : Obj)
    (hb : vm.instructions.getD ip 0 = b)
    (hsp2 : 2 ≤ vm.sp) (hspU : vm.sp ≤ StackSize)
    (hleft : vm.stack.getD (vm.sp - 2) .nilRef = u₁)
    (hright : vm.stack.getD (vm.sp - 1) .nilRef = u₂)
    (hsem : binopSem b u₁ u₂ = some res) :
    stepVM vm ip = .ok ({ vm with stack := vm.stack.set (vm.sp - 2) res, sp := vm.sp - 1 }, ip + 1) := by
  cases u₁ with
  | intV a =>
    cases u₂ with
    | intV v =>
      simp only [binopSem] at hsem
      by_cases h4 : b = 2 ∨ b = 3 ∨ b = 4 ∨ b = 5
      · rw [if_pos h4] at hsem
        cases hex : executeBinaryIntegerOperation b (.intV a) (.intV v) with
        | ok r =>
          rw [hex] at hsem
          simp only [Option.some.injEq] at hsem
          subst hsem
          exact stepVM_binInt vm ip b a v r hb h4 hsp2 hspU hleft hright hex
        | fail m => rw [hex] at hsem; simp at hsem
        | crash m => rw [hex] at hsem; simp at hsem
        | timeout => rw [hex] at hsem; simp at hsem
      · rw [if_neg h4] at hsem
        by_cases h3 : b = 8 ∨ b = 9 ∨ b = 10
        · rw [if_pos h3] at hsem
          cases hex : executeIntegerComparison b (.intV a) (.intV v) with
          | ok r =>
            rw [hex] at hsem
            simp only [Option.some.injEq] at hsem
            subst hsem
            exact stepVM_cmpInt vm ip b a v r hb h3 hsp2 hspU hleft hright hex
          | fail m => rw [hex] at hsem; simp at hsem
          | crash m => rw [hex] at hsem; simp at hsem
          | timeout => rw [hex] at hsem; simp at hsem
        · rw [if_neg h3] at hsem
          simp at hsem
    | nilRef => simp [binopSem] at hsem
    | boolV p => simp [binopSem] at hsem
    | nullV => simp [binopSem] at hsem
    | strV s => simp [binopSem] at hsem
    | arrayV l => simp [binopSem] at hsem
    | hashV l => simp [binopSem] at hsem
  | boolV p =>
    cases u₂ with
    | boolV q =>
      simp only [binopSem] at hsem
      by_cases h8 : b = 8
      · subst h8
        rw [if_pos rfl] at hsem
        simp only [Option.some.injEq] at hsem
        have hstep := stepVM_cmpBool vm ip 8 p q hb (Or.inl rfl) hsp2 hspU hleft hright
        rw [if_pos rfl] at hstep
        rw [hstep, hsem]
      · by_cases h9 : b = 9
        · subst h9
          rw [if_neg (by omega), if_pos rfl] at hsem
          simp only [Option.some.injEq] at hsem
          have hstep := stepVM_cmpBool vm ip 9 p q hb (Or.inr rfl) hsp2 hspU hleft hright
          rw [if_neg (by omega)] at hstep
          rw [hstep, hsem]
        · rw [if_neg h8, if_neg h9] at hsem
          simp at hsem
    | nilRef => simp [binopSem] at hsem
    | intV a => simp [binopSem] at hsem
    | nullV => simp [binopSem] at hsem
    | strV s => simp [binopSem] at hsem
    | arrayV l => simp [binopSem] at hsem
    | hashV l => simp [binopSem] at hsem
  | nilRef => simp [binopSem] at hsem
  | nullV => simp [binopSem] at hsem
  | strV s => simp [binopSem] at hsem
  | arrayV l => simp [binopSem] at hsem
  | hashV l => simp [binopSem] at hsem


theorem segRun_const (idx : Nat) (cc : List Obj) (u : Obj) (sz : Nat)
    (hidx : idx < cc.length) (hu : cc.getD idx .nilRef = u)
    (h16 : idx < 65536) (hsz : 1 ≤ sz) :
    SegRun [0, idx % 65536 / 256, idx % 256] cc sz 1 u := by
  intro vm pre post crest hvi hvc hstklen hsp
  refine ⟨vm.stack.set vm.sp u, by simp [hstklen],
    take_set_of_le _ _ _ _ le_rfl,
    getD_set_self _ _ _ _ (by rw [hstklen]; omega), ?_⟩
  intro f0
  have hb : vm.instructions.getD pre.length 0 = 0 := by
    have h := getD_append_at pre (([0, idx % 65536 / 256, idx % 256] : List Nat) ++ post) 0 (0 : Nat)
    rw [hvi, List.append_assoc]
    simpa using h
  have hh : vm.instructions.getD (pre.length + 1) 0 = idx % 65536 / 256 := by
    have h := getD_append_at pre (([0, idx % 65536 / 256, idx % 256] : List Nat) ++ post) 1 (0 : Nat)
    rw [hvi, List.append_assoc]
    simpa using h
  have hl : vm.instructions.getD (pre.length + 2) 0 = idx % 256 := by
    have h := getD_append_at pre (([0, idx % 65536 / 256, idx % 256] : List Nat) ++ post) 2 (0 : Nat)
    rw [hvi, List.append_assoc]
    simpa using h
  have hin : pre.length + 2 < vm.instructions.length := by
    rw [hvi]; simp
  have hidx' : 256 * (idx % 65536 / 256) + idx % 256 < vm.constants.length := by
    rw [enc2_decode idx h16, hvc]
    simp only [List.length_append]
    omega
  have hstep := stepVM_const vm pre.length _ _ hb hin hh hl hidx' (by omega)
  have hval : vm.constants.getD (256 * (idx % 65536 / 256) + idx % 256) .nilRef = u := by
    rw [enc2_decode idx h16, hvc, getD_append_lt _ _ _ _ hidx, hu]
  rw [hval] at hstep
  have hlt : pre.length < vm.instructions.length := by
    rw [hvi]; simp
  have hrun := runVM_step vm _ pre.length (pre.length + 3) hlt hstep f0
  simpa using hrun

theorem segRun_bool (bv : Bool) (cc : List Obj) (sz : Nat) (hsz : 1 ≤ sz) :
    SegRun [if bv then 6 else 7] cc sz 1 (.boolV bv) := by
  intro vm pre post crest hvi hvc hstklen hsp
  refine ⟨vm.stack.set vm.sp (.boolV bv), by simp [hstklen],
    take_set_of_le _ _ _ _ le_rfl,
    getD_set_self _ _ _ _ (by rw [hstklen]; omega), ?_⟩
  intro f0
  have hlt : pre.length < vm.instructions.length := by
    rw [hvi]; simp
  cases bv with
  | true =>
    have hb : vm.instructions.getD pre.length 0 = 6 := by
      have h := getD_append_at pre (([6] : List Nat) ++ post) 0 (0 : Nat)
      rw [hvi, List.append_assoc]
      simpa using h
    have hstep := stepVM_true vm pre.length hb (by omega)
    have hrun := runVM_step vm _ pre.length (pre.length + 1) hlt hstep f0
    simpa using hrun
  | false =>
    have hb : vm.instructions.getD pre.length 0 = 7 := by
      have h := getD_append_at pre (([7] : List Nat) ++ post) 0 (0 : Nat)
      rw [hvi, List.append_assoc]
      simpa using h
    have hstep := stepVM_false vm pre.length hb (by omega)
    have hrun := runVM_step vm _ pre.length (pre.length + 1) hlt hstep f0
    simpa using hrun


theorem segRun_comp_un (D : List Nat) (b : Nat) (cc : List Obj)
    (sz₁ sz k : Nat) (u res : Obj)
    (h : SegRun D cc sz₁ k u)
    (hb2 : b = 11 ∨ b = 12)
    (hsem : unopSem b u = some res)
    (hsz1 : sz₁ ≤ sz) (hsz : 1 ≤ sz) :
    SegRun (D ++ [b]) cc sz (k + 1) res := by
  intro vm pre post crest hvi hvc hstklen hsp
  obtain ⟨stk₁, hl₁, htk₁, hg₁, hr₁⟩ := h vm pre ([b] ++ post) crest
    (by rw [hvi]; simp) hvc hstklen (by omega)
  set vm₁ : VM := { vm with stack := stk₁, sp := vm.sp + 1 } with hvm₁
  have hb : vm₁.instructions.getD (pre.length + D.length) 0 = b := by
    show vm.instructions.getD (pre.length + D.length) 0 = b
    have heq : vm.instructions = (pre ++ D) ++ ([b] ++ post) := by rw [hvi]; simp
    have h0 := getD_append_at (pre ++ D) (([b] : List Nat) ++ post) 0 (0 : Nat)
    rw [heq]
    simpa using h0
  have hw : vm₁.stack.getD (vm₁.sp - 1) .nilRef = u := by
    show stk₁.getD (vm.sp + 1 - 1) .nilRef = u
    simpa using hg₁
  have hstep := stepVM_unop vm₁ (pre.length + D.length) b u res hb hb2
    (by show vm.sp + 1 ≠ 0; omega) (by show vm.sp + 1 ≤ StackSize; omega) hw hsem
  have hlt : pre.length + D.length < vm₁.instructions.length := by
    show pre.length + D.length < vm.instructions.length
    rw [hvi]; simp
  refine ⟨stk₁.set vm.sp res, by simp [hl₁], ?_,
    getD_set_self _ _ _ _ (by rw [hl₁]; omega), ?_⟩
  · rw [take_set_of_le _ _ _ _ le_rfl]
    exact htk₁
  · intro f0
    have harr : k + 1 + f0 = k + (1 + f0) := by omega
    rw [harr, hr₁ (1 + f0)]
    have hrun := runVM_step vm₁ _ (pre.length + D.length)
      (pre.length + D.length + 1) hlt hstep f0
    have hidx : vm.sp + 1 - 1 = vm.sp := by omega
    have hlen : pre.length + (D ++ [b]).length = pre.length + D.length + 1 := by
      simp only [List.length_append, List.length_cons, List.length_nil]
      omega
    rw [hlen]
    rw [hvm₁] at hrun
    simpa [hidx] using hrun

theorem segRun_comp (D₁ D₂ : List Nat) (b : Nat) (cc₁ : List Obj) (t : List Obj)
    (sz₁ sz₂ sz k₁ k₂ : Nat) (u₁ u₂ res : Obj)
    (h₁ : SegRun D₁ cc₁ sz₁ k₁ u₁)
    (h₂ : SegRun D₂ (cc₁ ++ t) sz₂ k₂ u₂)
    (hsem : binopSem b u₁ u₂ = some res)
    (hsz1 : sz₁ ≤ sz) (hsz2 : sz₂ + 1 ≤ sz) (hsz3 : 2 ≤ sz) :
    SegRun (D₁ ++ (D₂ ++ [b])) (cc₁ ++ t) sz (k₁ + (k₂ + 1)) res := by
  intro vm pre post crest hvi hvc hstklen hsp
  obtain ⟨stk₁, hl₁, htk₁, hg₁, hr₁⟩ := h₁ vm pre (D₂ ++ [b] ++ post) (t ++ crest)
    (by rw [hvi]; simp) (by rw [hvc]; simp) hstklen (by omega)
  set vm₁ : VM := { vm with stack := stk₁, sp := vm.sp + 1 } with hvm₁
  obtain ⟨stk₂, hl₂, htk₂, hg₂, hr₂⟩ := h₂ vm₁ (pre ++ D₁) ([b] ++ post) crest
    (by show vm.instructions = (pre ++ D₁) ++ D₂ ++ ([b] ++ post); rw [hvi]; simp)
    (by show vm.constants = (cc₁ ++ t) ++ crest; exact hvc)
    (by show stk₁.length = StackSize; exact hl₁)
    (by show vm.sp + 1 + sz₂ ≤ StackSize; omega)
  set vm₂ : VM := { vm₁ with stack := stk₂, sp := vm₁.sp + 1 } with hvm₂
  have hb : vm₂.instructions.getD (pre.length + D₁.length + D₂.length) 0 = b := by
    show vm.instructions.getD (pre.length + D₁.length + D₂.length) 0 = b
    have heq : vm.instructions = ((pre ++ D₁) ++ D₂) ++ ([b] ++ post) := by
      rw [hvi]; simp
    have h0 := getD_append_at ((pre ++ D₁) ++ D₂) (([b] : List Nat) ++ post) 0 (0 : Nat)
    rw [heq]
    simpa [Nat.add_assoc] using h0
  have hleft : vm₂.stack.getD (vm₂.sp - 2) .nilRef = u₁ := by
    show stk₂.getD (vm.sp + 1 + 1 - 2) .nilRef = u₁
    have hgd : stk₂.getD vm.sp .nilRef = stk₁.getD vm.sp .nilRef :=
      getD_of_take_eq stk₂ stk₁ vm.sp .nilRef htk₂
    rw [show vm.sp + 1 + 1 - 2 = vm.sp from by omega, hgd, hg₁]
  have hright : vm₂.stack.getD (vm₂.sp - 1) .nilRef = u₂ := by
    show stk₂.getD (vm.sp + 1 + 1 - 1) .nilRef = u₂
    rw [show vm.sp + 1 + 1 - 1 = vm.sp + 1 from by omega]
    exact hg₂
  have hstep := stepVM_binop vm₂ (pre.length + D₁.length + D₂.length) b u₁ u₂ res hb
    (by show 2 ≤ vm.sp + 1 + 1; omega) (by show vm.sp + 1 + 1 ≤ StackSize; omega)
    hleft hright hsem
  have hlt : pre.length + D₁.length + D₂.length < vm₂.instructions.length := by
    show pre.length + D₁.length + D₂.length < vm.instructions.length
    rw [hvi]
    simp only [List.length_append, List.length_cons, List.length_nil]
    omega
  refine ⟨stk₂.set vm.sp res, by simp [hl₂], ?_,
    getD_set_self _ _ _ _ (by rw [hl₂]; omega), ?_⟩
  · rw [take_set_of_le _ _ _ _ le_rfl]
    have h1 : stk₂.take vm.sp = stk₁.take vm.sp := by
      have h0 := congrArg (fun l : List Obj => l.take vm.sp) htk₂
      simpa [List.take_take, Nat.min_def, Nat.le_succ] using h0
    rw [h1, htk₁]
  · intro f0
    have harr : k₁ + (k₂ + 1) + f0 = k₁ + (k₂ + (1 + f0)) := by omega
    rw [harr, hr₁ (k₂ + (1 + f0))]
    have hip : ((pre ++ D₁) : List Nat).length = pre.length + D₁.length := by simp
    have hr₂' := hr₂ (1 + f0)
    rw [hip] at hr₂'
    rw [hr₂']
    have hrun := runVM_step vm₂ _ (pre.length + D₁.length + D₂.length)
      (pre.length + D₁.length + D₂.length + 1) hlt hstep f0
    have h2 : vm.sp + 1 + 1 - 2 = vm.sp := by omega
    have h1 : vm.sp + 1 + 1 - 1 = vm.sp + 1 := by omega
    have hlen : pre.length + (D₁ ++ (D₂ ++ [b])).length
        = pre.length + D₁.length + D₂.length + 1 := by
      simp only [List.length_append, List.length_cons, List.length_nil]
      omega
    rw [hlen]
    rw [hvm₂, hvm₁] at hrun
    simpa [h2, h1] using hrun


/-- Shared conclusion tail for every infix-operator case of the
expression simulation: given the two compiled operand segments and the
operator's stack semantics, the emitted three-part region satisfies all
bookkeeping facts and runs to the operator's result. -/
theorem simInfixTail (c c₁ c₂ : Compiler) (opc : Opcode)
    (D₁ D₂ : List Nat) (K₁ K₂ : List Obj) (k₁ k₂ : Nat)
    (u₁ u₂ res : Obj) (szA szB szE : Nat)
    (hw : opc.operandWidth = [])
    (hins₁ : c₁.instructions = c.instructions ++ D₁)
    (hcon₁ : c₁.constants = c.constants ++ K₁)
    (hsym₁ : c₁.symbolTable = c.symbolTable)
    (hins₂ : c₂.instructions = c₁.instructions ++ D₂)
    (hcon₂ : c₂.constants = c₁.constants ++ K₂)
    (hsym₂ : c₂.symbolTable = c₁.symbolTable)
    (hKlen₁ : K₁.length ≤ szA) (hKlen₂ : K₂.length ≤ szB)
    (hk₁ : k₁ ≤ D₁.length) (hk₂ : k₂ ≤ D₂.length)
    (hseg₁ : SegRun D₁ (c.constants ++ K₁) szA k₁ u₁)
    (hseg₂ : SegRun D₂ (c₁.constants ++ K₂) szB k₂ u₂)
    (hsem : binopSem opc.toByte u₁ u₂ = some res)
    (hs1 : szA ≤ szE) (hs2 : szB + 1 ≤ szE) (hs3 : 2 ≤ szE)
    (hsK : szA + szB + 1 ≤ szE + 1) :
    (c₂.emit opc []).2.instructions
        = c.instructions ++ (D₁ ++ (D₂ ++ [opc.toByte]))
    ∧ (c₂.emit opc []).2.constants = c.constants ++ (K₁ ++ K₂)
    ∧ (c₂.emit opc []).2.symbolTable = c.symbolTable
    ∧ (K₁ ++ K₂).length ≤ szE
    ∧ k₁ + (k₂ + 1) ≤ (D₁ ++ (D₂ ++ [opc.toByte])).length
    ∧ SegRun (D₁ ++ (D₂ ++ [opc.toByte])) (c.constants ++ (K₁ ++ K₂)) szE
        (k₁ + (k₂ + 1)) res := by
  refine ⟨?_, ?_, ?_, ?_, ?_, ?_⟩
  · show c₂.instructions ++ MakeInstruction opc [] = _
    rw [make_zeroary opc hw, hins₂, hins₁]
    simp
  · show c₂.constants = _
    rw [hcon₂, hcon₁]
    simp
  · show c₂.symbolTable = _
    rw [hsym₂, hsym₁]
  · simp only [List.length_append]
    omega
  · simp only [List.length_append, List.length_cons, List.length_nil]
    omega
  · have hseg₂' : SegRun D₂ ((c.constants ++ K₁) ++ K₂) szB k₂ u₂ := by
      rw [hcon₁] at hseg₂
      exact hseg₂
    have h := segRun_comp D₁ D₂ opc.toByte (c.constants ++ K₁) K₂ szA szB szE
      k₁ k₂ u₁ u₂ res hseg₁ hseg₂' hsem hs1 hs2 hs3
    rw [List.append_assoc] at h
    exact h


/-- Straight-line simulation: an expression with a value under the
spec's core-fragment rules compiles without error to a region that
appends its constants to the pool and, at run time, pushes exactly
that value. -/
theorem simExpr : ∀ (e : Expr) (v : Obj) (c : Compiler),
    specValue e = some v →
    c.constants.length + exprSize e ≤ 65536 →
    ∃ (c' : Compiler) (D : List Nat) (K : List Obj) (k : Nat),
      compileExpr e c = .ok c'
      ∧ c'.instructions = c.instructions ++ D
      ∧ c'.constants = c.constants ++ K
      ∧ c'.symbolTable = c.symbolTable
      ∧ K.length ≤ exprSize e
      ∧ k ≤ D.length
      ∧ SegRun D (c.constants ++ K) (exprSize e) k v
  | .identE name, v, c, hsv, hK => by
    simp [specValue] at hsv
  | .strLit s, v, c, hsv, hK => by
    simp [specValue] at hsv
  | .arrayLit es, v, c, hsv, hK => by
    simp [specValue] at hsv
  | .hashLit ps, v, c, hsv, hK => by
    simp [specValue] at hsv
  | .indexE a i, v, c, hsv, hK => by
    simp [specValue] at hsv
  | .callE f as, v, c, hsv, hK => by
    simp [specValue] at hsv
  | .funcLit ps bd, v, c, hsv, hK => by
    simp [specValue] at hsv
  | .ifE cond cq alt, v, c, hsv, hK => by
    simp [specValue] at hsv
  | .intLit n, v, c, hsv, hK => by
    simp only [specValue, Option.some.injEq] at hsv
    subst hsv
    refine ⟨((c.addConstant (.intV n)).2.emit .opConstant [(c.addConstant (.intV n)).1]).2,
      [0, c.constants.length % 65536 / 256, c.constants.length % 256],
      [.intV n], 1, rfl, ?_, rfl, rfl, by simp [exprSize], by simp, ?_⟩
    · show (c.addConstant (.intV n)).2.instructions
          ++ MakeInstruction .opConstant [c.constants.length] = _
      rw [make_u16 .opConstant rfl]
      rfl
    · exact segRun_const c.constants.length (c.constants ++ [.intV n]) (.intV n)
        (exprSize (.intLit n)) (by simp)
        (by simpa using getD_append_at c.constants [Obj.intV n] 0 Obj.nilRef)
        (by simp only [exprSize] at hK; omega)
        (exprSize_pos _)
  | .boolLit bv, v, c, hsv, hK => by
    simp only [specValue, Option.some.injEq] at hsv
    subst hsv
    cases bv with
    | true =>
      refine ⟨(c.emit .opTrue []).2, [6], [], 1, rfl, ?_,
        by show c.constants = c.constants ++ []; simp, rfl,
        by simp [exprSize], by simp, ?_⟩
      · show c.instructions ++ MakeInstruction .opTrue [] = _
        rw [make_zeroary .opTrue rfl]
        rfl
      · have h := segRun_bool true (c.constants ++ []) (exprSize (.boolLit true))
          (exprSize_pos _)
        simpa using h
    | false =>
      refine ⟨(c.emit .opFalse []).2, [7], [], 1, rfl, ?_,
        by show c.constants = c.constants ++ []; simp, rfl,
        by simp [exprSize], by simp, ?_⟩
      · show c.instructions ++ MakeInstruction .opFalse [] = _
        rw [make_zeroary .opFalse rfl]
        rfl
      · have h := segRun_bool false (c.constants ++ []) (exprSize (.boolLit false))
          (exprSize_pos _)
        simpa using h
  | .prefixE op r, v, c, hsv, hK => by
    cases hr : specValue r with
    | none => rw [specValue, hr] at hsv; simp at hsv
    | some rv =>
      simp only [specValue, hr] at hsv
      have hKr : c.constants.length + exprSize r ≤ 65536 := by
        simp only [exprSize] at hK
        omega
      obtain ⟨c₁, Dr, Kr, kr, hcomp, hins, hcon, hsym, hKlen, hkb, hseg⟩ :=
        simExpr r rv c hr hKr
      by_cases hneg : op = "-"
      · subst hneg
        rw [if_pos rfl] at hsv
        cases rv with
        | intV m =>
          simp only [Option.some.injEq] at hsv
          subst hsv
          refine ⟨(c₁.emit .opMinus []).2, Dr ++ [11], Kr, kr + 1, ?_, ?_, ?_, ?_, ?_, ?_, ?_⟩
          · simp only [compileExpr, except_bind_eq, hcomp, except_bind_ok]
            simp
          · show c₁.instructions ++ MakeInstruction .opMinus [] = _
            rw [make_zeroary .opMinus rfl, hins]
            simp [Opcode.toByte]
          · exact hcon
          · exact hsym
          · simp only [exprSize]
            omega
          · simp only [List.length_append, List.length_cons, List.length_nil]
            omega
          · refine segRun_comp_un Dr 11 (c.constants ++ Kr) (exprSize r) _ kr
              (.intV m) _ hseg (Or.inl rfl) (by simp [unopSem]) ?_ ?_
            · simp only [exprSize]
              omega
            · exact exprSize_pos _
        | nilRef => simp at hsv
        | boolV p => simp at hsv
        | nullV => simp at hsv
        | strV s => simp at hsv
        | arrayV ar => simp at hsv
        | hashV hh => simp at hsv
      · by_cases hbang : op = "!"
        · subst hbang
          rw [if_neg hneg, if_pos rfl] at hsv
          cases rv with
          | boolV bb =>
            simp only [Option.some.injEq] at hsv
            subst hsv
            refine ⟨(c₁.emit .opBang []).2, Dr ++ [12], Kr, kr + 1, ?_, ?_, ?_, ?_, ?_, ?_, ?_⟩
            · simp only [compileExpr, except_bind_eq, hcomp, except_bind_ok]
              simp
            · show c₁.instructions ++ MakeInstruction .opBang [] = _
              rw [make_zeroary .opBang rfl, hins]
              simp [Opcode.toByte]
            · exact hcon
            · exact hsym
            · simp only [exprSize]
              omega
            · simp only [List.length_append, List.length_cons, List.length_nil]
              omega
            · refine segRun_comp_un Dr 12 (c.constants ++ Kr) (exprSize r) _ kr
                (.boolV bb) _ hseg (Or.inr rfl) (by cases bb <;> simp [unopSem]) ?_ ?_
              · simp only [exprSize]
                omega
              · exact exprSize_pos _
          | intV m =>
            simp only [Option.some.injEq] at hsv
            subst hsv
            refine ⟨(c₁.emit .opBang []).2, Dr ++ [12], Kr, kr + 1, ?_, ?_, ?_, ?_, ?_, ?_, ?_⟩
            · simp only [compileExpr, except_bind_eq, hcomp, except_bind_ok]
              simp
            · show c₁.instructions ++ MakeInstruction .opBang [] = _
              rw [make_zeroary .opBang rfl, hins]
              simp [Opcode.toByte]
            · exact hcon
            · exact hsym
            · simp only [exprSize]
              omega
            · simp only [List.length_append, List.length_cons, List.length_nil]
              omega
            · refine segRun_comp_un Dr 12 (c.constants ++ Kr) (exprSize r) _ kr
                (.intV m) _ hseg (Or.inr rfl) (by simp [unopSem]) ?_ ?_
              · simp only [exprSize]
                omega
              · exact exprSize_pos _
          | nilRef => simp at hsv
          | nullV => simp at hsv
          | strV s => simp at hsv
          | arrayV ar => simp at hsv
          | hashV hh => simp at hsv
        · rw [if_neg hneg, if_neg hbang] at hsv
          simp at hsv

  | .infixE op l r, v, c, hsv, hK => by
    have hsv0 := hsv
    rw [specValue] at hsv0
    cases hlv : specValue l with
    | none => rw [hlv] at hsv0; simp at hsv0
    | some lv =>
    cases hrv : specValue r with
    | none => rw [hlv, hrv] at hsv0; simp at hsv0
    | some rv =>
    rw [hlv, hrv] at hsv0
    have hshapes : (∃ a b : Int, lv = .intV a ∧ rv = .intV b)
        ∨ (∃ p q : Bool, lv = .boolV p ∧ rv = .boolV q) := by
      cases lv <;> cases rv <;> simp at hsv0
      · exact Or.inl ⟨_, _, rfl, rfl⟩
      · exact Or.inr ⟨_, _, rfl, rfl⟩
    have hszl1 := exprSize_pos l
    have hszr1 := exprSize_pos r
    have hKA : c.constants.length + exprSize l ≤ 65536 := by
      simp only [exprSize] at hK
      omega
    have hKB : c.constants.length + exprSize r ≤ 65536 := by
      simp only [exprSize] at hK
      omega
    by_cases hoplt : op = "<"
    · subst hoplt
      rcases hshapes with ⟨a, bb, rfl, rfl⟩ | ⟨p, q, rfl, rfl⟩
      · obtain ⟨c₁, D₁, K₁, k₁, hcomp₁, hins₁, hcon₁, hsym₁, hKlen₁, hk₁, hseg₁⟩ :=
          simExpr r (.intV bb) c hrv hKB
        obtain ⟨c₂, D₂, K₂, k₂, hcomp₂, hins₂, hcon₂, hsym₂, hKlen₂, hk₂, hseg₂⟩ :=
          simExpr l (.intV a) c₁ hlv
            (by rw [hcon₁]
                simp only [List.length_append]
                simp only [exprSize] at hK
                omega)
        have hbridge : binopSem Opcode.opGreaterThan.toByte (.intV bb) (.intV a)
            = specValue (.infixE "<" l r) := by
          rw [specValue, hlv, hrv]
          simp [binopSem, executeIntegerComparison, Opcode.toByte, boolNative_eq]
        have hcompeq : compileExpr (.infixE "<" l r) c
            = .ok (c₂.emit .opGreaterThan []).2 := by
          simp [compileExpr, hcomp₁, hcomp₂]
        obtain ⟨t1, t2, t3, t4, t5, t6⟩ := simInfixTail c c₁ c₂ .opGreaterThan
          D₁ D₂ K₁ K₂ k₁ k₂ (.intV bb) (.intV a) v (exprSize r) (exprSize l)
          (exprSize (.infixE "<" l r)) rfl hins₁ hcon₁ hsym₁ hins₂ hcon₂ hsym₂
          hKlen₁ hKlen₂ hk₁ hk₂ hseg₁ hseg₂ (hbridge.trans hsv)
          (by simp only [exprSize]; omega) (by simp only [exprSize]; omega)
          (by simp only [exprSize]; omega) (by simp only [exprSize]; omega)
        exact ⟨(c₂.emit .opGreaterThan []).2,
          D₁ ++ (D₂ ++ [Opcode.opGreaterThan.toByte]), K₁ ++ K₂, k₁ + (k₂ + 1),
          hcompeq, t1, t2, t3, t4, t5, t6⟩
      · rw [specValue, hlv, hrv] at hsv
        simp at hsv
    · by_cases hplus : op = "+"
      · subst hplus
        rcases hshapes with ⟨a, bb, rfl, rfl⟩ | ⟨p, q, rfl, rfl⟩
        · obtain ⟨c₁, D₁, K₁, k₁, hcomp₁, hins₁, hcon₁, hsym₁, hKlen₁, hk₁, hseg₁⟩ :=
            simExpr l (.intV a) c hlv hKA
          obtain ⟨c₂, D₂, K₂, k₂, hcomp₂, hins₂, hcon₂, hsym₂, hKlen₂, hk₂, hseg₂⟩ :=
            simExpr r (.intV bb) c₁ hrv
              (by rw [hcon₁]
                  simp only [List.length_append]
                  simp only [exprSize] at hK
                  omega)
          have hbridge : binopSem Opcode.opAdd.toByte (.intV a) (.intV bb)
              = specValue (.infixE "+" l r) := by
            rw [specValue, hlv, hrv]
            simp [binopSem, executeBinaryIntegerOperation, Opcode.toByte]
          have hcompeq : compileExpr (.infixE "+" l r) c = .ok (c₂.emit .opAdd []).2 := by
            simp [compileExpr, hcomp₁, hcomp₂, emitInfixOp]
          obtain ⟨t1, t2, t3, t4, t5, t6⟩ := simInfixTail c c₁ c₂ .opAdd
            D₁ D₂ K₁ K₂ k₁ k₂ (.intV a) (.intV bb) v (exprSize l) (exprSize r)
            (exprSize (.infixE "+" l r)) rfl hins₁ hcon₁ hsym₁ hins₂ hcon₂ hsym₂
            hKlen₁ hKlen₂ hk₁ hk₂ hseg₁ hseg₂ (hbridge.trans hsv)
            (by simp only [exprSize]; omega) (by simp only [exprSize]; omega)
            (by simp only [exprSize]; omega) (by simp only [exprSize]; omega)
          exact ⟨(c₂.emit .opAdd []).2, D₁ ++ (D₂ ++ [Opcode.opAdd.toByte]),
            K₁ ++ K₂, k₁ + (k₂ + 1), hcompeq, t1, t2, t3, t4, t5, t6⟩
        · rw [specValue, hlv, hrv] at hsv
          simp at hsv
      · by_cases hminus : op = "-"
        · subst hminus
          rcases hshapes with ⟨a, bb, rfl, rfl⟩ | ⟨p, q, rfl, rfl⟩
          · obtain ⟨c₁, D₁, K₁, k₁, hcomp₁, hins₁, hcon₁, hsym₁, hKlen₁, hk₁, hseg₁⟩ :=
              simExpr l (.intV a) c hlv hKA
            obtain ⟨c₂, D₂, K₂, k₂, hcomp₂, hins₂, hcon₂, hsym₂, hKlen₂, hk₂, hseg₂⟩ :=
              simExpr r (.intV bb) c₁ hrv
                (by rw [hcon₁]
                    simp only [List.length_append]
                    simp only [exprSize] at hK
                    omega)
            have hbridge : binopSem Opcode.opSub.toByte (.intV a) (.intV bb)
                = specValue (.infixE "-" l r) := by
              rw [specValue, hlv, hrv]
              simp [binopSem, executeBinaryIntegerOperation, Opcode.toByte]
            have hcompeq : compileExpr (.infixE "-" l r) c = .ok (c₂.emit .opSub []).2 := by
              simp [compileExpr, hcomp₁, hcomp₂, emitInfixOp]
            obtain ⟨t1, t2, t3, t4, t5, t6⟩ := simInfixTail c c₁ c₂ .opSub
              D₁ D₂ K₁ K₂ k₁ k₂ (.intV a) (.intV bb) v (exprSize l) (exprSize r)
              (exprSize (.infixE "-" l r)) rfl hins₁ hcon₁ hsym₁ hins₂ hcon₂ hsym₂
              hKlen₁ hKlen₂ hk₁ hk₂ hseg₁ hseg₂ (hbridge.trans hsv)
              (by simp only [exprSize]; omega) (by simp only [exprSize]; omega)
              (by simp only [exprSize]; omega) (by simp only [exprSize]; omega)
            exact ⟨(c₂.emit .opSub []).2, D₁ ++ (D₂ ++ [Opcode.opSub.toByte]),
              K₁ ++ K₂, k₁ + (k₂ + 1), hcompeq, t1, t2, t3, t4, t5, t6⟩
          · rw [specValue, hlv, hrv] at hsv
            simp at hsv
        · by_cases hmul : op = "*"
          · subst hmul
            rcases hshapes with ⟨a, bb, rfl, rfl⟩ | ⟨p, q, rfl, rfl⟩
            · obtain ⟨c₁, D₁, K₁, k₁, hcomp₁, hins₁, hcon₁, hsym₁, hKlen₁, hk₁, hseg₁⟩ :=
                simExpr l (.intV a) c hlv hKA
              obtain ⟨c₂, D₂, K₂, k₂, hcomp₂, hins₂, hcon₂, hsym₂, hKlen₂, hk₂, hseg₂⟩ :=
                simExpr r (.intV bb) c₁ hrv
                  (by rw [hcon₁]
                      simp only [List.length_append]
                      simp only [exprSize] at hK
                      omega)
              have hbridge : binopSem Opcode.opMul.toByte (.intV a) (.intV bb)
                  = specValue (.infixE "*" l r) := by
                rw [specValue, hlv, hrv]
                simp [binopSem, executeBinaryIntegerOperation, Opcode.toByte]
              have hcompeq : compileExpr (.infixE "*" l r) c = .ok (c₂.emit .opMul []).2 := by
                simp [compileExpr, hcomp₁, hcomp₂, emitInfixOp]
              obtain ⟨t1, t2, t3, t4, t5, t6⟩ := simInfixTail c c₁ c₂ .opMul
                D₁ D₂ K₁ K₂ k₁ k₂ (.intV a) (.intV bb) v (exprSize l) (exprSize r)
                (exprSize (.infixE "*" l r)) rfl hins₁ hcon₁ hsym₁ hins₂ hcon₂ hsym₂
                hKlen₁ hKlen₂ hk₁ hk₂ hseg₁ hseg₂ (hbridge.trans hsv)
                (by simp only [exprSize]; omega) (by simp only [exprSize]; omega)
                (by simp only [exprSize]; omega) (by simp only [exprSize]; omega)
              exact ⟨(c₂.emit .opMul []).2, D₁ ++ (D₂ ++ [Opcode.opMul.toByte]),
                K₁ ++ K₂, k₁ + (k₂ + 1), hcompeq, t1, t2, t3, t4, t5, t6⟩
            · rw [specValue, hlv, hrv] at hsv
              simp at hsv
          · by_cases hdiv : op = "/"
            · subst hdiv
              rcases hshapes with ⟨a, bb, rfl, rfl⟩ | ⟨p, q, rfl, rfl⟩
              · by_cases hz : bb = 0
                · rw [specValue, hlv, hrv] at hsv
                  simp [hz] at hsv
                · obtain ⟨c₁, D₁, K₁, k₁, hcomp₁, hins₁, hcon₁, hsym₁, hKlen₁, hk₁, hseg₁⟩ :=
                    simExpr l (.intV a) c hlv hKA
                  obtain ⟨c₂, D₂, K₂, k₂, hcomp₂, hins₂, hcon₂, hsym₂, hKlen₂, hk₂, hseg₂⟩ :=
                    simExpr r (.intV bb) c₁ hrv
                      (by rw [hcon₁]
                          simp only [List.length_append]
                          simp only [exprSize] at hK
                          omega)
                  have hbridge : binopSem Opcode.opDiv.toByte (.intV a) (.intV bb)
                      = specValue (.infixE "/" l r) := by
                    rw [specValue, hlv, hrv]
                    simp [binopSem, executeBinaryIntegerOperation, Opcode.toByte, hz]
                  have hcompeq : compileExpr (.infixE "/" l r) c
                      = .ok (c₂.emit .opDiv []).2 := by
                    simp [compileExpr, hcomp₁, hcomp₂, emitInfixOp]
                  obtain ⟨t1, t2, t3, t4, t5, t6⟩ := simInfixTail c c₁ c₂ .opDiv
                    D₁ D₂ K₁ K₂ k₁ k₂ (.intV a) (.intV bb) v (exprSize l) (exprSize r)
                    (exprSize (.infixE "/" l r)) rfl hins₁ hcon₁ hsym₁ hins₂ hcon₂ hsym₂
                    hKlen₁ hKlen₂ hk₁ hk₂ hseg₁ hseg₂ (hbridge.trans hsv)
                    (by simp only [exprSize]; omega) (by simp only [exprSize]; omega)
                    (by simp only [exprSize]; omega) (by simp only [exprSize]; omega)
                  exact ⟨(c₂.emit .opDiv []).2, D₁ ++ (D₂ ++ [Opcode.opDiv.toByte]),
                    K₁ ++ K₂, k₁ + (k₂ + 1), hcompeq, t1, t2, t3, t4, t5, t6⟩
              · rw [specValue, hlv, hrv] at hsv
                simp at hsv
            · by_cases heq : op = "=="
              · subst heq
                rcases hshapes with ⟨a, bb, rfl, rfl⟩ | ⟨p, q, rfl, rfl⟩
                · obtain ⟨c₁, D₁, K₁, k₁, hcomp₁, hins₁, hcon₁, hsym₁, hKlen₁, hk₁, hseg₁⟩ :=
                    simExpr l (.intV a) c hlv hKA
                  obtain ⟨c₂, D₂, K₂, k₂, hcomp₂, hins₂, hcon₂, hsym₂, hKlen₂, hk₂, hseg₂⟩ :=
                    simExpr r (.intV bb) c₁ hrv
                      (by rw [hcon₁]
                          simp only [List.length_append]
                          simp only [exprSize] at hK
                          omega)
                  have hbridge : binopSem Opcode.opEqual.toByte (.intV a) (.intV bb)
                      = specValue (.infixE "==" l r) := by
                    rw [specValue, hlv, hrv]
                    simp [binopSem, executeIntegerComparison, Opcode.toByte, boolNative_eq]
                  have hcompeq : compileExpr (.infixE "==" l r) c
                      = .ok (c₂.emit .opEqual []).2 := by
                    simp [compileExpr, hcomp₁, hcomp₂, emitInfixOp]
                  obtain ⟨t1, t2, t3, t4, t5, t6⟩ := simInfixTail c c₁ c₂ .opEqual
                    D₁ D₂ K₁ K₂ k₁ k₂ (.intV a) (.intV bb) v (exprSize l) (exprSize r)
                    (exprSize (.infixE "==" l r)) rfl hins₁ hcon₁ hsym₁ hins₂ hcon₂ hsym₂
                    hKlen₁ hKlen₂ hk₁ hk₂ hseg₁ hseg₂ (hbridge.trans hsv)
                    (by simp only [exprSize]; omega) (by simp only [exprSize]; omega)
                    (by simp only [exprSize]; omega) (by simp only [exprSize]; omega)
                  exact ⟨(c₂.emit .opEqual []).2, D₁ ++ (D₂ ++ [Opcode.opEqual.toByte]),
                    K₁ ++ K₂, k₁ + (k₂ + 1), hcompeq, t1, t2, t3, t4, t5, t6⟩
                · obtain ⟨c₁, D₁, K₁, k₁, hcomp₁, hins₁, hcon₁, hsym₁, hKlen₁, hk₁, hseg₁⟩ :=
                    simExpr l (.boolV p) c hlv hKA
                  obtain ⟨c₂, D₂, K₂, k₂, hcomp₂, hins₂, hcon₂, hsym₂, hKlen₂, hk₂, hseg₂⟩ :=
                    simExpr r (.boolV q) c₁ hrv
                      (by rw [hcon₁]
                          simp only [List.length_append]
                          simp only [exprSize] at hK
                          omega)
                  have hbridge : binopSem Opcode.opEqual.toByte (.boolV p) (.boolV q)
                      = specValue (.infixE "==" l r) := by
                    rw [specValue, hlv, hrv]
                    cases p <;> cases q <;> simp [binopSem, Opcode.toByte]
                  have hcompeq : compileExpr (.infixE "==" l r) c
                      = .ok (c₂.emit .opEqual []).2 := by
                    simp [compileExpr, hcomp₁, hcomp₂, emitInfixOp]
                  obtain ⟨t1, t2, t3, t4, t5, t6⟩ := simInfixTail c c₁ c₂ .opEqual
                    D₁ D₂ K₁ K₂ k₁ k₂ (.boolV p) (.boolV q) v (exprSize l) (exprSize r)
                    (exprSize (.infixE "==" l r)) rfl hins₁ hcon₁ hsym₁ hins₂ hcon₂ hsym₂
                    hKlen₁ hKlen₂ hk₁ hk₂ hseg₁ hseg₂ (hbridge.trans hsv)
                    (by simp only [exprSize]; omega) (by simp only [exprSize]; omega)
                    (by simp only [exprSize]; omega) (by simp only [exprSize]; omega)
                  exact ⟨(c₂.emit .opEqual []).2, D₁ ++ (D₂ ++ [Opcode.opEqual.toByte]),
                    K₁ ++ K₂, k₁ + (k₂ + 1), hcompeq, t1, t2, t3, t4, t5, t6⟩
              · by_cases hne : op = "!="
                · subst hne
                  rcases hshapes with ⟨a, bb, rfl, rfl⟩ | ⟨p, q, rfl, rfl⟩
                  · obtain ⟨c₁, D₁, K₁, k₁, hcomp₁, hins₁, hcon₁, hsym₁, hKlen₁, hk₁, hseg₁⟩ :=
                      simExpr l (.intV a) c hlv hKA
                    obtain ⟨c₂, D₂, K₂, k₂, hcomp₂, hins₂, hcon₂, hsym₂, hKlen₂, hk₂, hseg₂⟩ :=
                      simExpr r (.intV bb) c₁ hrv
                        (by rw [hcon₁]
                            simp only [List.length_append]
                            simp only [exprSize] at hK
                            omega)
                    have hbridge : binopSem Opcode.opNotEqual.toByte (.intV a) (.intV bb)
                        = specValue (.infixE "!=" l r) := by
                      rw [specValue, hlv, hrv]
                      simp [binopSem, executeIntegerComparison, Opcode.toByte, boolNative_eq]
                    have hcompeq : compileExpr (.infixE "!=" l r) c
                        = .ok (c₂.emit .opNotEqual []).2 := by
                      simp [compileExpr, hcomp₁, hcomp₂, emitInfixOp]
                    obtain ⟨t1, t2, t3, t4, t5, t6⟩ := simInfixTail c c₁ c₂ .opNotEqual
                      D₁ D₂ K₁ K₂ k₁ k₂ (.intV a) (.intV bb) v (exprSize l) (exprSize r)
                      (exprSize (.infixE "!=" l r)) rfl hins₁ hcon₁ hsym₁ hins₂ hcon₂ hsym₂
                      hKlen₁ hKlen₂ hk₁ hk₂ hseg₁ hseg₂ (hbridge.trans hsv)
                      (by simp only [exprSize]; omega) (by simp only [exprSize]; omega)
                      (by simp only [exprSize]; omega) (by simp only [exprSize]; omega)
                    exact ⟨(c₂.emit .opNotEqual []).2,
                      D₁ ++ (D₂ ++ [Opcode.opNotEqual.toByte]),
                      K₁ ++ K₂, k₁ + (k₂ + 1), hcompeq, t1, t2, t3, t4, t5, t6⟩
                  · obtain ⟨c₁, D₁, K₁, k₁, hcomp₁, hins₁, hcon₁, hsym₁, hKlen₁, hk₁, hseg₁⟩ :=
                      simExpr l (.boolV p) c hlv hKA
                    obtain ⟨c₂, D₂, K₂, k₂, hcomp₂, hins₂, hcon₂, hsym₂, hKlen₂, hk₂, hseg₂⟩ :=
                      simExpr r (.boolV q) c₁ hrv
                        (by rw [hcon₁]
                            simp only [List.length_append]
                            simp only [exprSize] at hK
                            omega)
                    have hbridge : binopSem Opcode.opNotEqual.toByte (.boolV p) (.boolV q)
                        = specValue (.infixE "!=" l r) := by
                      rw [specValue, hlv, hrv]
                      cases p <;> cases q <;> simp [binopSem, Opcode.toByte]
                    have hcompeq : compileExpr (.infixE "!=" l r) c
                        = .ok (c₂.emit .opNotEqual []).2 := by
                      simp [compileExpr, hcomp₁, hcomp₂, emitInfixOp]
                    obtain ⟨t1, t2, t3, t4, t5, t6⟩ := simInfixTail c c₁ c₂ .opNotEqual
                      D₁ D₂ K₁ K₂ k₁ k₂ (.boolV p) (.boolV q) v (exprSize l) (exprSize r)
                      (exprSize (.infixE "!=" l r)) rfl hins₁ hcon₁ hsym₁ hins₂ hcon₂ hsym₂
                      hKlen₁ hKlen₂ hk₁ hk₂ hseg₁ hseg₂ (hbridge.trans hsv)
                      (by simp only [exprSize]; omega) (by simp only [exprSize]; omega)
                      (by simp only [exprSize]; omega) (by simp only [exprSize]; omega)
                    exact ⟨(c₂.emit .opNotEqual []).2,
                      D₁ ++ (D₂ ++ [Opcode.opNotEqual.toByte]),
                      K₁ ++ K₂, k₁ + (k₂ + 1), hcompeq, t1, t2, t3, t4, t5, t6⟩
                · by_cases hgt : op = ">"
                  · subst hgt
                    rcases hshapes with ⟨a, bb, rfl, rfl⟩ | ⟨p, q, rfl, rfl⟩
                    · obtain ⟨c₁, D₁, K₁, k₁, hcomp₁, hins₁, hcon₁, hsym₁, hKlen₁, hk₁, hseg₁⟩ :=
                        simExpr l (.intV a) c hlv hKA
                      obtain ⟨c₂, D₂, K₂, k₂, hcomp₂, hins₂, hcon₂, hsym₂, hKlen₂, hk₂, hseg₂⟩ :=
                        simExpr r (.intV bb) c₁ hrv
                          (by rw [hcon₁]
                              simp only [List.length_append]
                              simp only [exprSize] at hK
                              omega)
                      have hbridge : binopSem Opcode.opGreaterThan.toByte (.intV a) (.intV bb)
                          = specValue (.infixE ">" l r) := by
                        rw [specValue, hlv, hrv]
                        simp [binopSem, executeIntegerComparison, Opcode.toByte, boolNative_eq]
                      have hcompeq : compileExpr (.infixE ">" l r) c
                          = .ok (c₂.emit .opGreaterThan []).2 := by
                        simp [compileExpr, hcomp₁, hcomp₂, emitInfixOp]
                      obtain ⟨t1, t2, t3, t4, t5, t6⟩ := simInfixTail c c₁ c₂ .opGreaterThan
                        D₁ D₂ K₁ K₂ k₁ k₂ (.intV a) (.intV bb) v (exprSize l) (exprSize r)
                        (exprSize (.infixE ">" l r)) rfl hins₁ hcon₁ hsym₁ hins₂ hcon₂ hsym₂
                        hKlen₁ hKlen₂ hk₁ hk₂ hseg₁ hseg₂ (hbridge.trans hsv)
                        (by simp only [exprSize]; omega) (by simp only [exprSize]; omega)
                        (by simp only [exprSize]; omega) (by simp only [exprSize]; omega)
                      exact ⟨(c₂.emit .opGreaterThan []).2,
                        D₁ ++ (D₂ ++ [Opcode.opGreaterThan.toByte]),
                        K₁ ++ K₂, k₁ + (k₂ + 1), hcompeq, t1, t2, t3, t4, t5, t6⟩
                    · rw [specValue, hlv, hrv] at hsv
                      simp at hsv
                  · rcases hshapes with ⟨a, bb, rfl, rfl⟩ | ⟨p, q, rfl, rfl⟩ <;>
                      simp [hoplt, hplus, hminus, hmul, hdiv, heq, hne, hgt] at hsv0


/-- **C3.** Stack neutrality of expression statements, amended to the
spec's core value fragment: every expression with a value `v` under the
evaluation rules for integers and booleans (`specValue`) whose node
count fits the value stack compiles as a single expression statement
without error; every sufficiently fueled run of the bytecode terminates
without error, the stack pointer ends where it started (at 0), and
`LastPoppedStackElement` returns exactly `v`. -/
theorem C3_stack_neutrality :
    ∀ (e : Expr) (v : Obj), specValue e = some v → exprSize e ≤ StackSize →
    ∃ (bc : ByteCode) (vmEnd : VM),
      compileProgram (.cons (.exprS e) .nil) = .ok bc
      ∧ (∀ fuel, bc.instructions.length + 1 < fuel →
          RunVM fuel (NewVM bc) = .ok vmEnd)
      ∧ vmEnd.sp = 0
      ∧ vmEnd.LastPoppedStackElement = v := by
  intro e v hsv hsize
  obtain ⟨c', D, K, k, hcomp, hins, hcon, hsym, hKlen, hkD, hseg⟩ :=
    simExpr e v NewCompiler hsv (by
      show NewCompiler.constants.length + exprSize e ≤ 65536
      have h0 : NewCompiler.constants.length = 0 := rfl
      have h1 : StackSize ≤ 65536 := by norm_num [StackSize]
      omega)
  have hprog : compileProgram (.cons (.exprS e) .nil)
      = .ok (Compiler.byteCode (c'.emit .opPop []).2) := by
    unfold compileProgram
    have hcb : compileBlock (.cons (.exprS e) .nil) NewCompiler
        = .ok (c'.emit .opPop []).2 := by
      simp [compileBlock, compileStmt, hcomp]
    rw [hcb]
    rfl
  set bc : ByteCode := Compiler.byteCode (c'.emit .opPop []).2 with hbc
  have hbins : bc.instructions = D ++ [1] := by
    show c'.instructions ++ MakeInstruction .opPop [] = D ++ [1]
    rw [make_zeroary .opPop rfl, hins]
    show NewCompiler.instructions ++ D ++ [Opcode.opPop.toByte] = D ++ [1]
    simp [NewCompiler, Opcode.toByte]
  have hbcon : bc.constants = K := by
    show c'.constants = K
    rw [hcon]
    rfl
  have hstk : (NewVM bc).stack.length = StackSize := by
    show (List.replicate StackSize Obj.nilRef).length = StackSize
    simp
  obtain ⟨stk', hlen', htk', hg', hrun⟩ := hseg (NewVM bc) [] [1] []
    (by show bc.instructions = [] ++ D ++ [1]
        rw [hbins]
        simp)
    (by show bc.constants = (NewCompiler.constants ++ K) ++ []
        rw [hbcon]
        simp [NewCompiler])
    hstk
    (by show (NewVM bc).sp + exprSize e ≤ StackSize
        show 0 + exprSize e ≤ StackSize
        omega)
  set vm₁ : VM := { NewVM bc with stack := stk', sp := (NewVM bc).sp + 1 } with hvm₁
  have hb1 : vm₁.instructions.getD D.length 0 = 1 := by
    show bc.instructions.getD D.length 0 = 1
    rw [hbins]
    simpa using getD_append_at D ([1] : List Nat) 0 (0 : Nat)
  have hstep := stepVM_pop' vm₁ D.length hb1
    (by show (NewVM bc).sp + 1 ≠ 0; simp)
    (by show (NewVM bc).sp + 1 ≤ StackSize
        show 0 + 1 ≤ StackSize
        norm_num [StackSize])
  have hlt : D.length < vm₁.instructions.length := by
    show D.length < bc.instructions.length
    rw [hbins]
    simp
  have hstepR := runVM_step vm₁ _ D.length (D.length + 1) hlt hstep
  have hdone : ∀ m, runVM (m + 1) { vm₁ with sp := vm₁.sp - 1 } (D.length + 1)
      = .ok { vm₁ with sp := vm₁.sp - 1 } := by
    intro m
    apply runVM_done
    show ¬ (D.length + 1 < bc.instructions.length)
    rw [hbins]
    simp
  refine ⟨bc, { vm₁ with sp := vm₁.sp - 1 }, hprog, ?_, ?_, ?_⟩
  · intro fuel hfuel
    have hlenbc : bc.instructions.length = D.length + 1 := by
      rw [hbins]
      simp
    have hfe : fuel = k + (1 + ((fuel - k - 2) + 1)) := by
      rw [hlenbc] at hfuel
      omega
    rw [RunVM, hfe]
    have h1 := hrun (1 + ((fuel - k - 2) + 1))
    simp only [List.length_nil, Nat.zero_add] at h1
    rw [h1, hstepR ((fuel - k - 2) + 1)]
    exact hdone (fuel - k - 2)
  · show (NewVM bc).sp + 1 - 1 = 0
    rfl
  · show stk'.getD ((NewVM bc).sp + 1 - 1) Obj.nilRef = v
    exact hg'


/-- Witness for **C3**: `1 + 2` evaluates to Integer 3 under the spec
rules; the compiled single-statement program runs without error to a
final stack pointer of 0 with last popped element Integer 3. -/
theorem C3_stack_neutrality_witness :
    specValue (.infixE "+" (.intLit 1) (.intLit 2)) = some (.intV 3)
    ∧ exprSize (.infixE "+" (.intLit 1) (.intLit 2)) ≤ StackSize
    ∧ ∃ (bc : ByteCode) (vmEnd : VM),
        compileProgram (.cons (.exprS (.infixE "+" (.intLit 1) (.intLit 2))) .nil)
          = .ok bc
        ∧ (∀ fuel, bc.instructions.length + 1 < fuel →
            RunVM fuel (NewVM bc) = .ok vmEnd)
        ∧ vmEnd.sp = 0
        ∧ vmEnd.LastPoppedStackElement = .intV 3 :=
  ⟨rfl, by norm_num [exprSize, StackSize],
    C3_stack_neutrality (.infixE "+" (.intLit 1) (.intLit 2)) (.intV 3) rfl
      (by norm_num [exprSize, StackSize])⟩

/-- Counterexample to the unrestricted **C3** claim: the expression
statement `if (false) { let x = 1; x } else { x }` compiles without
error and runs without error, the stack pointer does return to 0, but
`LastPoppedStackElement` is the nil interface — `OpGetGlobal` in the
alternative reads a globals slot the skipped consequence never wrote —
which is no value of the language at all (calling `Type()` on it
panics, `objType` is `none`), let alone the value of the expression. -/
theorem C3_counterexample :
    runLastPopped 50 progDeadLet = .ok .nilRef
    ∧ runFinalSp 50 progDeadLet = .ok 0
    ∧ objType .nilRef = none :=
  ⟨rfl, rfl, rfl⟩

end BytecodeComp
